import Mathlib

/-!
Shallow embedding of the grid-table parser/serializer core of
obsidian-grid-tables (src/TableSerde.ts, src/TableData.ts).

JavaScript strings are modelled as `List Char` (`Str`).  Functions that can
throw in the source are modelled with `Option` (`none` = an exception was
raised).  All definitions are written to be structurally recursive so that
concrete inputs evaluate by `decide` / `rfl`.
-/

/-- JavaScript strings are lists of (UTF-16-ish) characters. -/
abbrev Str := List Char

/-- The character class matched by JavaScript `\s` (used by `String.trimEnd`). -/
def isJsSpace (c : Char) : Bool :=
  c.val = 9 || c.val = 10 || c.val = 11 || c.val = 12 || c.val = 13 ||
  c.val = 32 || c.val = 160 || c.val = 0x1680 ||
  (0x2000 ≤ c.val && c.val ≤ 0x200a) ||
  c.val = 0x2028 || c.val = 0x2029 || c.val = 0x202f || c.val = 0x205f ||
  c.val = 0x3000 || c.val = 0xfeff

/-- JavaScript `String.prototype.trimEnd`: drop trailing whitespace. -/
def trimEnd (s : Str) : Str :=
  (s.reverse.dropWhile isJsSpace).reverse

/-- JavaScript `String.prototype.padEnd(n, " ")`. -/
def padEnd (s : Str) (n : Nat) : Str :=
  s ++ List.replicate (n - s.length) ' '

/-- JavaScript `String.prototype.split("\n")` (also `split(/\n/)`):
always returns at least one fragment, fragments contain no newline. -/
def splitNl : Str → List Str
  | [] => [[]]
  | c :: rest =>
    if c = '\n' then [] :: splitNl rest
    else
      match splitNl rest with
      | [] => [[c]]
      | f :: fs => (c :: f) :: fs

/-- `Math.max(...xs)` for a list of naturals (the source only applies it to
non-empty lists of non-negative lengths, where this agrees). -/
def listMax (xs : List Nat) : Nat := xs.foldl max 0

/-- Decimal digit character for `k < 10`, as produced by JS `Number.toString()`. -/
def digitCharOf (k : Nat) : Char := Char.ofNat (48 + k)

/-- Fuelled decimal rendering of a natural number (JS `Number.toString()`). -/
def natDigitsAux : Nat → Nat → List Char → List Char
  | 0, _, acc => acc
  | fuel + 1, n, acc =>
    if n < 10 then digitCharOf n :: acc
    else natDigitsAux fuel (n / 10) (digitCharOf (n % 10) :: acc)

/-- Decimal rendering of a natural number, e.g. `natDigits 10 = "10".toList`. -/
def natDigits (n : Nat) : List Char := natDigitsAux (n + 1) n []

/-- Numeric value of a decimal digit character (as used by `parseInt`). -/
def digitVal (c : Char) : Nat := c.toNat - 48

/-- `parseInt(s, 10)` on a non-empty run of decimal digits. -/
def charsToNat (ds : List Char) : Nat :=
  ds.foldl (fun a c => 10 * a + digitVal c) 0

/-! ## Data model (src/TableData.ts) -/

/-- A table cell owns a single content string (may contain `\n`). -/
structure TableCell where
  content : Str
deriving DecidableEq, Repr

/-- A table row owns an ordered sequence of cells. -/
structure TableRow where
  cells : List TableCell
deriving DecidableEq, Repr

/-- A table owns an ordered sequence of rows. -/
structure TableContent where
  rows : List TableRow
deriving DecidableEq, Repr

/-! ## Line grammar (src/TableSerde.ts) -/

/-- `SeparatorLine`: column dash-lengths plus optional visual-width hints.
`visualWidths` models the source's `(number | null)[] | null`. -/
structure SeparatorLine where
  columnLengths : List Nat
  visualWidths : Option (List (Option Nat)) := none
deriving DecidableEq, Repr

/-- One rendered segment per column: the dashes followed by the visual-width
digits when `visual[i] != null` (mirrors the loop in `toStringRepr`). -/
def sepSegs : List Nat → Option (List (Option Nat)) → List Str
  | [], _ => []
  | l :: ls, none => List.replicate l '-' :: sepSegs ls none
  | l :: ls, some vs =>
    (List.replicate l '-' ++
      (match vs.head? with
       | some (some w) => natDigits w
       | _ => [])) :: sepSegs ls (some vs.tail)

/-- `SeparatorLine.toStringRepr`: `"+" + parts.join("+") + "+"`. -/
def SeparatorLine.toStringRepr (sep : SeparatorLine) : Str :=
  '+' :: (List.intercalate ['+'] (sepSegs sep.columnLengths sep.visualWidths) ++ ['+'])

/-- State of the left-to-right scanner inside `SeparatorLine.tryParse`:
either right after a `+` (segment boundary), inside the dash run, or inside
the optional digit run (with `d` dashes seen and accumulated value `v`). -/
inductive SepPhase where
  | start : SepPhase
  | dashes : Nat → SepPhase
  | digits : Nat → Nat → SepPhase
deriving DecidableEq, Repr

/-- The scanning loop of `SeparatorLine.tryParse` over the interior characters
(the loop runs while `i < line.length - 1`; reaching the end of the interior
plays the role of the final `+` at index `length - 1`). -/
def sepGo : List Char → SepPhase → List (Nat × Option Nat) →
    Option (List (Nat × Option Nat))
  | [], .start, acc => some acc.reverse
  | [], .dashes d, acc => some ((d, none) :: acc).reverse
  | [], .digits d v, acc => some ((d, some v) :: acc).reverse
  | c :: cs, .start, acc =>
    if c = '-' then sepGo cs (.dashes 1) acc
    else none
  | c :: cs, .dashes d, acc =>
    if c = '-' then sepGo cs (.dashes (d + 1)) acc
    else if c.isDigit then sepGo cs (.digits d (digitVal c)) acc
    else if c = '+' then sepGo cs .start ((d, none) :: acc)
    else none
  | c :: cs, .digits d v, acc =>
    if c.isDigit then sepGo cs (.digits d (10 * v + digitVal c)) acc
    else if c = '+' then sepGo cs .start ((d, some v) :: acc)
    else none

/-- `SeparatorLine.tryParse` (`none` = the thrown format error).  Accepts the
legacy form `+--+---+` and the extended form `+--10+---+` with digit suffixes;
if no column carries a digit run the resulting `visualWidths` stays `null`,
otherwise hint-less columns are filled with `0`. -/
def SeparatorLine.tryParse (line : Str) : Option SeparatorLine :=
  match line with
  | [] => none
  | c :: rest =>
    if c = '+' then
      if (c :: rest).getLast? = some '+' then
        match sepGo rest.dropLast .start [] with
        | none => none
        | some segs =>
          if segs.isEmpty then none
          else
            some ⟨segs.map (·.1),
              if (segs.map (·.2)).any Option.isSome then
                some ((segs.map (·.2)).map (fun v => some (v.getD 0)))
              else none⟩
      else none
    else none

/-- `ContentLine`: one raw data chunk per (recognized) column. -/
structure ContentLine where
  dataChunks : List Str
deriving DecidableEq, Repr

/-- Rendering of one chunk inside `ContentLine.toStringRepr`:
`" "` when empty, otherwise `" " + s + " "`. -/
def cellRepr (s : Str) : Str :=
  if s = [] then [' '] else ' ' :: (s ++ [' '])

/-- `ContentLine.toStringRepr`: `"|" + chunks.map(...).join("|") + "|"`. -/
def ContentLine.toStringRepr (cl : ContentLine) : Str :=
  '|' :: (List.intercalate ['|'] (cl.dataChunks.map cellRepr) ++ ['|'])

/-- The per-column loop of `ContentLine.tryParseAccordingToSepLine`: for each
column length `L` take the `L + 1` character slice; a slice not ending in `|`
is skipped without consuming input; otherwise strip the `|`, then at most one
leading and one trailing space, and collect the fragment.  Fails (`none`) when
a slice is too short or characters remain at the end. -/
def contentGo : List Nat → List Char → Option (List Str)
  | [], line => if line.isEmpty then some [] else none
  | colLength :: cols, line =>
    let expectedLength := colLength + 1
    let part := line.take expectedLength
    if part.length ≠ expectedLength then none
    else if part.getLast? ≠ some '|' then contentGo cols line
    else
      let t0 := part.dropLast
      let t1 := if t0.head? = some ' ' then t0.drop 1 else t0
      let t2 := if t1.getLast? = some ' ' then t1.dropLast else t1
      (contentGo cols (line.drop expectedLength)).map (t2 :: ·)

/-- `ContentLine.tryParseAccordingToSepLine` (`none` = thrown format error). -/
def ContentLine.tryParseAccordingToSepLine (line : Str) (sepLine : SeparatorLine) :
    Option ContentLine :=
  match line with
  | [] => none
  | c :: rest =>
    if c = '|' then (contentGo sepLine.columnLengths rest).map ContentLine.mk
    else none

example : SeparatorLine.tryParse ("+-+".toList) = some ⟨[1], none⟩ := by decide
example : SeparatorLine.tryParse ("+--+----+".toList) = some ⟨[2, 4], none⟩ := by decide
example : SeparatorLine.tryParse ("".toList) = none := by decide
example : SeparatorLine.tryParse ("+-".toList) = none := by decide
example : SeparatorLine.tryParse ("-+".toList) = none := by decide
example : SeparatorLine.tryParse ("+-+-".toList) = none := by decide
example : SeparatorLine.tryParse ("+-hi-+".toList) = none := by decide
example : SeparatorLine.tryParse ("+--10+---+".toList) =
    some ⟨[2, 3], some [some 10, some 0]⟩ := by decide
example : SeparatorLine.toStringRepr ⟨[1, 2, 3], none⟩ = "+-+--+---+".toList := by decide
example : SeparatorLine.toStringRepr ⟨[2, 3], some [some 10, none]⟩ =
    "+--10+---+".toList := by decide
example : ContentLine.tryParseAccordingToSepLine (" ".toList) ⟨[1], none⟩ = none := by decide
example : ContentLine.tryParseAccordingToSepLine ("| hey | a |".toList) ⟨[5, 3], none⟩ =
    some ⟨["hey".toList, "a".toList]⟩ := by decide
example : ContentLine.tryParseAccordingToSepLine ("| hey  |a |".toList) ⟨[6, 2], none⟩ =
    some ⟨["hey ".toList, "a".toList]⟩ := by decide
example : ContentLine.tryParseAccordingToSepLine ("| x|x | b | c |".toList)
    ⟨[5, 3, 3], none⟩ = some ⟨["x|x".toList, "b".toList, "c".toList]⟩ := by decide
example : ContentLine.tryParseAccordingToSepLine ("|a|b|".toList) ⟨[1], none⟩ = none := by
  decide
example : ContentLine.tryParseAccordingToSepLine ("|a|".toList) ⟨[2], none⟩ = none := by
  decide

/-! ## Scanner, validator, converter, serializer (src/TableSerde.ts) -/

/-- A parsed line is either a separator line or a content line. -/
inductive TablePart where
  | sep : SeparatorLine → TablePart
  | content : ContentLine → TablePart
deriving DecidableEq, Repr

/-- Whether a part is a `SeparatorLine` (the source's `instanceof` check). -/
def TablePart.isSep : TablePart → Bool
  | .sep _ => true
  | .content _ => false

/-- `toStringRepr` dispatched over the two line kinds. -/
def TablePart.toStringRepr : TablePart → Str
  | .sep s => s.toStringRepr
  | .content c => c.toStringRepr

/-- The loop of `lookAheadForTableParts` after the initial separator line has
been recognized: separator parse is attempted first, then content parse
against the *initial* separator; a line failing both ends the scan. -/
def lookAheadRest (initialSeparatorLine : SeparatorLine) : List Str → List TablePart
  | [] => []
  | line :: rest =>
    match SeparatorLine.tryParse line with
    | some s => TablePart.sep s :: lookAheadRest initialSeparatorLine rest
    | none =>
      match ContentLine.tryParseAccordingToSepLine line initialSeparatorLine with
      | some c => TablePart.content c :: lookAheadRest initialSeparatorLine rest
      | none => []

/-- `lookAheadForTableParts`: never errors; returns `[]` when the very first
line does not parse as a separator. -/
def lookAheadForTableParts : List Str → List TablePart
  | [] => []
  | line :: rest =>
    match SeparatorLine.tryParse line with
    | some s => TablePart.sep s :: lookAheadRest s rest
    | none => []

/-- The inner column check of `isValidTableSpec` on a content line:
`entry.dataChunks[i].length - expectedColumns[i] > 2` for each expected
column; accessing a missing chunk (`dataChunks[i]` undefined) throws a
TypeError in the source, modelled as `none`. -/
def checkContentChunks : List Nat → List Str → Option Bool
  | [], _ => some true
  | _ :: _, [] => none
  | e :: es, c :: cs =>
    if (2 : Int) < (c.length : Int) - (e : Int) then some false
    else checkContentChunks es cs

/-- The walk of `isValidTableSpec` from index 1, tracking `separatorOk`. -/
def validLoop (firstCols : List Nat) : List TablePart → Bool → Option Bool
  | [], _ => some true
  | TablePart.sep s :: rest, separatorOk =>
    if !separatorOk then some false
    else if s.columnLengths ≠ firstCols then some false
    else validLoop firstCols rest false
  | TablePart.content c :: rest, _ =>
    match checkContentChunks firstCols c.dataChunks with
    | none => none
    | some false => some false
    | some true => validLoop firstCols rest true

/-- `isValidTableSpec` (`none` = a TypeError escaped; the source's
`SeparatorLine.equals` compares comma-joined decimal strings, which coincide
exactly when the `columnLengths` lists are equal). -/
def isValidTableSpec (parts : List TablePart) : Option Bool :=
  if parts.length < 3 then some false
  else
    match parts with
    | TablePart.sep first :: rest =>
      match parts.getLast? with
      | some (TablePart.sep _) => validLoop first.columnLengths rest false
      | _ => some false
    | _ => some false

/-- The per-chunk loop of `validSpecToTableContent` on a content line:
`newCellContents[i].push(dataChunks[i].trimEnd())`; pushing into a missing
buffer throws a TypeError in the source, modelled as `none`. -/
def pushChunks : List (List Str) → List Str → Option (List (List Str))
  | cells, [] => some cells
  | [], _ :: _ => none
  | cell :: cells, chunk :: chunks =>
    (pushChunks cells chunks).map ((cell ++ [trimEnd chunk]) :: ·)

/-- Flushing the accumulated per-column fragment buffers into a row:
each column's fragments are joined with `"\n"` to form one cell. -/
def flushRow (bufs : List (List Str)) : TableRow :=
  ⟨bufs.map (fun b => ⟨List.intercalate ['\n'] b⟩)⟩

/-- The walk of `validSpecToTableContent`: each separator after the first
flushes the buffers into a new row and resets them to the new separator's
column count; content lines append their right-trimmed fragments. -/
def convGo : List TablePart → List (List Str) → Bool → List TableRow →
    Option (List TableRow)
  | [], _, _, rows => some rows
  | TablePart.sep s :: rest, bufs, isFirstSeparator, rows =>
    convGo rest (List.replicate s.columnLengths.length []) false
      (if isFirstSeparator then rows else rows ++ [flushRow bufs])
  | TablePart.content c :: rest, bufs, isFirstSeparator, rows =>
    match pushChunks bufs c.dataChunks with
    | none => none
    | some bufs2 => convGo rest bufs2 isFirstSeparator rows

/-- `validSpecToTableContent` (`none` = a TypeError escaped). -/
def validSpecToTableContent (parts : List TablePart) : Option TableContent :=
  (convGo parts [] true []).map TableContent.mk

/-- `tryParseTableFromParsedParts`: validate, then convert (`none` = the
thrown "Table format is invalid!" error or a propagated TypeError). -/
def tryParseTableFromParsedParts (parts : List TablePart) : Option TableContent :=
  match isValidTableSpec parts with
  | some true => validSpecToTableContent parts
  | _ => none

/-! ### Serializer (`tableContentToString`) -/

/-- Maximum line length of one cell's content (splitting on `\n`). -/
def cellMaxWidth (c : TableCell) : Nat :=
  listMax ((splitNl c.content).map List.length)

/-- Folding one row into the running `colContentWidths` accumulator:
missing columns are pushed as `0`, then raised to the cell's maximum. -/
def updateColWidths : List Nat → List TableCell → List Nat
  | acc, [] => acc
  | [], c :: cs => max 0 (cellMaxWidth c) :: updateColWidths [] cs
  | a :: acc, c :: cs => max a (cellMaxWidth c) :: updateColWidths acc cs

/-- `colContentWidths`: per column, the maximum content line length over all
rows. -/
def colContentWidths (t : TableContent) : List Nat :=
  t.rows.foldl (fun acc r => updateColWidths acc r.cells) []

/-- The content-derived width: `1` for an empty column, else `contentWidth + 2`
(this is both the no-base fallback and the `minRequired` floor). -/
def fallbackWidth (cw : Nat) : Nat :=
  if cw = 0 then 1 else cw + 2

/-- One column of the base-width branch: a non-positive base falls back, a
positive base is raised to `minRequired` when smaller. -/
def adjustWidth (cw : Nat) (b : Int) : Nat :=
  if b ≤ 0 then fallbackWidth cw else max b.toNat (fallbackWidth cw)

/-- The base-width loop over `colContentWidths` (missing base entries read as
`?? 0`). -/
def baseAdjustedWidths : List Nat → List Int → List Nat
  | [], _ => []
  | cw :: cws, [] => fallbackWidth cw :: baseAdjustedWidths cws []
  | cw :: cws, b :: bs => adjustWidth cw b :: baseAdjustedWidths cws bs

/-- `separatorWidths` as computed by `tableContentToString`. -/
def separatorWidthsOf (colW : List Nat) (base : Option (List Int)) : List Nat :=
  match base with
  | some bs => if 0 < bs.length then baseAdjustedWidths colW bs else colW.map fallbackWidth
  | none => colW.map fallbackWidth

/-- `paddingWidths`: `separatorWidth - 2`, or `0` when `separatorWidth <= 1`. -/
def paddingWidthsOf (sepW : List Nat) : List Nat :=
  sepW.map (fun sw => if sw ≤ 1 then 0 else sw - 2)

/-- The inner column loop building one output content line:
`(lines[innerRowIdx] || "").padEnd(paddingWidths[colIdx], " ")`. -/
def rowPartsAt (rowLines : List (List Str)) (pads : List Nat) (idx : Nat) : List Str :=
  match rowLines, pads with
  | [], _ => []
  | ls :: rest, [] => padEnd (ls.getD idx []) 0 :: rowPartsAt rest [] idx
  | ls :: rest, p :: ps => padEnd (ls.getD idx []) p :: rowPartsAt rest ps idx

/-- The content lines emitted for one row: one line per inner row index up to
the row's maximum sub-line count. -/
def renderRowLines (pads : List Nat) (row : TableRow) : List ContentLine :=
  (List.range (listMax ((row.cells.map (fun c => splitNl c.content)).map List.length))).map
    (fun idx => ⟨rowPartsAt (row.cells.map (fun c => splitNl c.content)) pads idx⟩)

/-- The caller-supplied visual widths as stored into the emitted separator
lines (`visualWidths && visualWidths.length > 0 ? visualWidths : null`). -/
def visualOf (vis : Option (List Nat)) : Option (List (Option Nat)) :=
  match vis with
  | some vl => if 0 < vl.length then some (vl.map some) else none
  | none => none

/-- The full part sequence emitted by `tableContentToString`: per row a
separator line then that row's content lines, and one trailing separator. -/
def serializeParts (t : TableContent) (base : Option (List Int))
    (vis : Option (List Nat)) : List TablePart :=
  (t.rows.map (fun row =>
    TablePart.sep ⟨separatorWidthsOf (colContentWidths t) base, visualOf vis⟩ ::
      (renderRowLines (paddingWidthsOf (separatorWidthsOf (colContentWidths t) base)) row).map
        TablePart.content)).flatten ++
    [TablePart.sep ⟨separatorWidthsOf (colContentWidths t) base, visualOf vis⟩]

/-- `tableContentToString` (`none` = the `SeparatorLine` constructor threw on
an empty column-length list, which happens exactly when the table contributes
no columns). -/
def tableContentToString (t : TableContent) (base : Option (List Int))
    (vis : Option (List Nat)) : Option Str :=
  if (separatorWidthsOf (colContentWidths t) base).isEmpty then none
  else some (List.intercalate ['\n'] ((serializeParts t base vis).map TablePart.toStringRepr))

example :
    lookAheadForTableParts
      ["+-+--+".toList, "|a|b1|".toList, "+-+--+".toList, "|c|d2|".toList,
       "|e|f1|".toList, "+-+--+".toList, "meow".toList] =
    [TablePart.sep ⟨[1, 2], none⟩, TablePart.content ⟨["a".toList, "b1".toList]⟩,
     TablePart.sep ⟨[1, 2], none⟩, TablePart.content ⟨["c".toList, "d2".toList]⟩,
     TablePart.content ⟨["e".toList, "f1".toList]⟩, TablePart.sep ⟨[1, 2], none⟩] := by
  decide

example :
    lookAheadForTableParts
      ["+-+--+".toList, "|a|b1|".toList, "+-+--+".toList, "|c|d 2|".toList,
       "|e|f1|".toList, "+---+--+".toList] =
    [TablePart.sep ⟨[1, 2], none⟩, TablePart.content ⟨["a".toList, "b1".toList]⟩,
     TablePart.sep ⟨[1, 2], none⟩] := by decide

example :
    isValidTableSpec
      [TablePart.sep ⟨[2, 3], none⟩, TablePart.content ⟨["".toList, " b ".toList]⟩,
       TablePart.sep ⟨[2, 3], none⟩] = some true := by decide

example :
    isValidTableSpec
      [TablePart.sep ⟨[4, 4], none⟩, TablePart.content ⟨["a".toList, "b".toList]⟩,
       TablePart.sep ⟨[2, 1], none⟩] = some false := by decide

example :
    tryParseTableFromParsedParts
      [TablePart.sep ⟨[4, 6], none⟩, TablePart.content ⟨["hi".toList, "th  ".toList]⟩,
       TablePart.content ⟨["yo".toList, "eyou".toList]⟩, TablePart.sep ⟨[4, 6], none⟩,
       TablePart.content ⟨["wo".toList, "ohoo".toList]⟩, TablePart.sep ⟨[4, 6], none⟩] =
    some ⟨[⟨[⟨"hi\nyo".toList⟩, ⟨"th\neyou".toList⟩]⟩,
           ⟨[⟨"wo".toList⟩, ⟨"ohoo".toList⟩]⟩]⟩ := by decide

example :
    tableContentToString
      ⟨[⟨[⟨"ab\ncd".toList⟩, ⟨"x".toList⟩]⟩, ⟨[⟨"a\nb\nc".toList⟩, ⟨"woohoo".toList⟩]⟩]⟩
      none none =
    some (("+----+--------+\n| ab | x      |\n| cd |        |\n+----+--------+\n" ++
      "| a  | woohoo |\n| b  |        |\n| c  |        |\n+----+--------+").toList) := by
  decide

example :
    tableContentToString ⟨[⟨[⟨"\n".toList⟩, ⟨"x".toList⟩]⟩, ⟨[⟨"".toList⟩, ⟨"woohoo".toList⟩]⟩]⟩
      none none =
    some (("+-+--------+\n| | x      |\n| |        |\n+-+--------+\n" ++
      "| | woohoo |\n+-+--------+").toList) := by decide

example :
    tableContentToString ⟨[⟨[⟨"".toList⟩, ⟨"b".toList⟩]⟩]⟩ none none =
    some ("+-+---+\n| | b |\n+-+---+".toList) := by decide

example :
    tableContentToString ⟨[⟨[⟨"a".toList⟩, ⟨"b".toList⟩]⟩]⟩ (some [10, 5]) none =
    some ("+----------+-----+\n| a        | b   |\n+----------+-----+".toList) := by decide

example : tableContentToString ⟨[]⟩ none none = none := by decide

/-! ## Lemmas about decimal digits -/

lemma digitCharOf_isDigit {k : Nat} (hk : k < 10) : (digitCharOf k).isDigit := by
  interval_cases k <;> decide

lemma digitVal_digitCharOf {k : Nat} (hk : k < 10) : digitVal (digitCharOf k) = k := by
  interval_cases k <;> decide

lemma isDigit_ne_dash {c : Char} (h : c.isDigit) : c ≠ '-' := by
  intro he; subst he; simp at h

lemma isDigit_ne_plus {c : Char} (h : c.isDigit) : c ≠ '+' := by
  intro he; subst he; simp at h

lemma natDigitsAux_acc (fuel : Nat) :
    ∀ n acc, natDigitsAux fuel n acc = natDigitsAux fuel n [] ++ acc := by
  induction fuel with
  | zero => intro n acc; simp [natDigitsAux]
  | succ fuel ih =>
    intro n acc
    by_cases h : n < 10
    · simp [natDigitsAux, h]
    · simp only [natDigitsAux, if_neg h]
      rw [ih (n / 10) (digitCharOf (n % 10) :: acc), ih (n / 10) [digitCharOf (n % 10)]]
      simp

lemma natDigitsAux_fuel (fuel : Nat) :
    ∀ fuel2 n, n < fuel → n < fuel2 →
      natDigitsAux fuel n [] = natDigitsAux fuel2 n [] := by
  induction fuel with
  | zero => intro fuel2 n h; omega
  | succ fuel ih =>
    intro fuel2 n h h2
    match fuel2, h2 with
    | fuel2 + 1, h2 =>
      by_cases hn : n < 10
      · simp [natDigitsAux, hn]
      · simp only [natDigitsAux, if_neg hn]
        rw [natDigitsAux_acc fuel, natDigitsAux_acc fuel2]
        have hd : n / 10 < n := Nat.div_lt_self (by omega) (by omega)
        rw [ih fuel2 (n / 10) (by omega) (by omega)]

lemma natDigits_eq_aux {fuel n : Nat} (h : n < fuel) :
    natDigits n = natDigitsAux fuel n [] := by
  unfold natDigits
  exact natDigitsAux_fuel (n + 1) fuel n (by omega) h

lemma natDigits_small {n : Nat} (h : n < 10) : natDigits n = [digitCharOf n] := by
  simp [natDigits, natDigitsAux, h]

lemma natDigits_step {n : Nat} (h : 10 ≤ n) :
    natDigits n = natDigits (n / 10) ++ [digitCharOf (n % 10)] := by
  have hd : n / 10 < n := Nat.div_lt_self (by omega) (by omega)
  rw [natDigits_eq_aux (show n < n + 1 by omega)]
  simp only [natDigitsAux, if_neg (by omega : ¬ n < 10)]
  rw [natDigitsAux_acc n, ← natDigits_eq_aux (show n / 10 < n by omega)]

lemma natDigits_ne_nil (n : Nat) : natDigits n ≠ [] := by
  by_cases h : n < 10
  · rw [natDigits_small h]; simp
  · rw [natDigits_step (by omega)]; simp

lemma natDigits_all_digit (n : Nat) : ∀ c ∈ natDigits n, c.isDigit := by
  induction n using Nat.strong_induction_on with
  | _ n ih =>
    by_cases h : n < 10
    · rw [natDigits_small h]
      intro c hc
      rw [List.mem_singleton] at hc
      subst hc
      exact digitCharOf_isDigit h
    · rw [natDigits_step (by omega)]
      intro c hc
      rcases List.mem_append.1 hc with hc | hc
      · exact ih (n / 10) (Nat.div_lt_self (by omega) (by omega)) c hc
      · rw [List.mem_singleton] at hc
        subst hc
        exact digitCharOf_isDigit (Nat.mod_lt _ (by omega))

lemma charsToNat_append_singleton (ds : List Char) (c : Char) :
    charsToNat (ds ++ [c]) = 10 * charsToNat ds + digitVal c := by
  simp [charsToNat, List.foldl_append]

lemma charsToNat_natDigits (n : Nat) : charsToNat (natDigits n) = n := by
  induction n using Nat.strong_induction_on with
  | _ n ih =>
    by_cases h : n < 10
    · rw [natDigits_small h]
      simp [charsToNat, digitVal_digitCharOf h]
    · rw [natDigits_step (by omega), charsToNat_append_singleton,
        ih (n / 10) (Nat.div_lt_self (by omega) (by omega)),
        digitVal_digitCharOf (Nat.mod_lt _ (by omega))]
      omega

/-! ## The separator render/parse characterization -/

/-- The rendered text of one parsed segment. -/
def segRepr (p : Nat × Option Nat) : Str :=
  List.replicate p.1 '-' ++
    (match p.2 with
     | some w => natDigits w
     | none => [])

/-- The (length, hint) pairs used by `toStringRepr` for given column lengths
and stored visual widths. -/
def segsOf : List Nat → Option (List (Option Nat)) → List (Nat × Option Nat)
  | [], _ => []
  | l :: ls, none => (l, none) :: segsOf ls none
  | l :: ls, some vs =>
    (l, match vs.head? with
        | some (some w) => some w
        | _ => none) :: segsOf ls (some vs.tail)

lemma sepSegs_eq_map (cols : List Nat) :
    ∀ vis, sepSegs cols vis = (segsOf cols vis).map segRepr := by
  induction cols with
  | nil => intro vis; cases vis <;> rfl
  | cons l ls ih =>
    intro vis
    match vis with
    | none => simp [sepSegs, segsOf, segRepr, ih none]
    | some [] => simp [sepSegs, segsOf, segRepr, ih (some [])]
    | some (none :: vt) => simp [sepSegs, segsOf, segRepr, ih (some vt)]
    | some (some w :: vt) => simp [sepSegs, segsOf, segRepr, ih (some vt)]

lemma segsOf_fst (cols : List Nat) :
    ∀ vis, (segsOf cols vis).map (·.1) = cols := by
  induction cols with
  | nil => intro vis; cases vis <;> rfl
  | cons l ls ih =>
    intro vis
    match vis with
    | none => simp [segsOf, ih none]
    | some vt => simp [segsOf, ih (some vt.tail)]

lemma segsOf_ne_nil {cols : List Nat} (h : cols ≠ []) (vis : Option (List (Option Nat))) :
    segsOf cols vis ≠ [] := by
  match cols, h with
  | l :: ls, _ => cases vis <;> simp [segsOf]

lemma segsOf_pos {cols : List Nat} (h : ∀ l ∈ cols, 0 < l) :
    ∀ vis, ∀ p ∈ segsOf cols vis, 0 < p.1 := by
  induction cols with
  | nil => intro vis p hp; cases vis <;> simp [segsOf] at hp
  | cons l ls ih =>
    intro vis p hp
    have hl : 0 < l := h l (by simp)
    have hls : ∀ x ∈ ls, 0 < x := fun x hx => h x (by simp [hx])
    match vis with
    | none =>
      rcases (by simpa [segsOf] using hp) with hp | hp
      · simp [hp, hl]
      · exact ih hls none p hp
    | some vt =>
      rcases (by simpa [segsOf] using hp) with hp | hp
      · simp [hp, hl]
      · exact ih hls (some vt.tail) p hp

lemma segsOf_snd_of_len {cols : List Nat} :
    ∀ hints : List (Option Nat), hints.length = cols.length →
      (segsOf cols (some hints)).map (·.2) = hints := by
  induction cols with
  | nil =>
    intro hints hlen
    match hints, hlen with
    | [], _ => rfl
  | cons l ls ih =>
    intro hints hlen
    match hints with
    | none :: vt => simp [segsOf, ih vt (by simpa using hlen)]
    | some w :: vt => simp [segsOf, ih vt (by simpa using hlen)]

lemma sepGo_start_dash (cs : List Char) (acc : List (Nat × Option Nat)) :
    sepGo ('-' :: cs) .start acc = sepGo cs (.dashes 1) acc := by
  simp [sepGo]

lemma sepGo_dash_dash (cs : List Char) (d : Nat) (acc : List (Nat × Option Nat)) :
    sepGo ('-' :: cs) (.dashes d) acc = sepGo cs (.dashes (d + 1)) acc := by
  simp [sepGo]

lemma sepGo_dash_digit {c : Char} (hc : c.isDigit) (cs : List Char) (d : Nat)
    (acc : List (Nat × Option Nat)) :
    sepGo (c :: cs) (.dashes d) acc = sepGo cs (.digits d (digitVal c)) acc := by
  simp [sepGo, isDigit_ne_dash hc, hc]

lemma sepGo_dash_plus (cs : List Char) (d : Nat) (acc : List (Nat × Option Nat)) :
    sepGo ('+' :: cs) (.dashes d) acc = sepGo cs .start ((d, none) :: acc) := by
  have h1 : ¬ (('+' : Char) = '-') := by decide
  have h2 : ('+' : Char).isDigit = false := by decide
  simp [sepGo, h1, h2]

lemma sepGo_digit_digit {c : Char} (hc : c.isDigit) (cs : List Char) (d v : Nat)
    (acc : List (Nat × Option Nat)) :
    sepGo (c :: cs) (.digits d v) acc = sepGo cs (.digits d (10 * v + digitVal c)) acc := by
  simp [sepGo, hc]

lemma sepGo_digit_plus (cs : List Char) (d v : Nat) (acc : List (Nat × Option Nat)) :
    sepGo ('+' :: cs) (.digits d v) acc = sepGo cs .start ((d, some v) :: acc) := by
  have h2 : ('+' : Char).isDigit = false := by decide
  simp [sepGo, h2]

lemma sepGo_dashes (k : Nat) :
    ∀ (s : List Char) (d : Nat) (acc : List (Nat × Option Nat)),
      sepGo (List.replicate k '-' ++ s) (.dashes d) acc = sepGo s (.dashes (d + k)) acc := by
  induction k with
  | zero => intro s d acc; simp
  | succ k ih =>
    intro s d acc
    rw [List.replicate_succ, List.cons_append, sepGo_dash_dash, ih s (d + 1) acc]
    have h : d + 1 + k = d + (k + 1) := by omega
    rw [h]

lemma sepGo_digits (ds : List Char) (hds : ∀ c ∈ ds, c.isDigit) :
    ∀ (s : List Char) (d v : Nat) (acc : List (Nat × Option Nat)),
      sepGo (ds ++ s) (.digits d v) acc =
        sepGo s (.digits d (ds.foldl (fun a c => 10 * a + digitVal c) v)) acc := by
  induction ds with
  | nil => intro s d v acc; simp
  | cons c cs ih =>
    intro s d v acc
    have hc : c.isDigit := hds c (by simp)
    rw [List.cons_append, sepGo_digit_digit hc,
      ih (fun x hx => hds x (by simp [hx])) s d (10 * v + digitVal c) acc]
    rfl

lemma sepGo_enter_digits (w : Nat) :
    ∀ (s : List Char) (d : Nat) (acc : List (Nat × Option Nat)),
      sepGo (natDigits w ++ s) (.dashes d) acc = sepGo s (.digits d w) acc := by
  intro s d acc
  match hnd : natDigits w with
  | [] => exact absurd hnd (natDigits_ne_nil w)
  | c0 :: ds =>
    have hall : ∀ c ∈ natDigits w, c.isDigit := natDigits_all_digit w
    rw [hnd] at hall
    have hc0 : c0.isDigit := hall c0 (by simp)
    rw [List.cons_append, sepGo_dash_digit hc0,
      sepGo_digits ds (fun x hx => hall x (by simp [hx])) s d (digitVal c0) acc]
    have hval : ds.foldl (fun a c => 10 * a + digitVal c) (digitVal c0) = w := by
      have h1 : charsToNat (c0 :: ds) = w := by rw [← hnd, charsToNat_natDigits]
      simpa [charsToNat] using h1
    rw [hval]

lemma intercalate_singleton {α : Type} (s : List α) (a : List α) :
    List.intercalate s [a] = a := by
  simp [List.intercalate]

lemma intercalate_cons_cons {α : Type} (s a b : List α) (l : List (List α)) :
    List.intercalate s (a :: b :: l) = a ++ s ++ List.intercalate s (b :: l) := by
  simp [List.intercalate, List.intersperse_cons_cons, List.append_assoc]

lemma sepGo_dash_block {l : Nat} (hl : 0 < l) (s : List Char)
    (acc : List (Nat × Option Nat)) :
    sepGo (List.replicate l '-' ++ s) .start acc = sepGo s (.dashes l) acc := by
  match l, hl with
  | l + 1, _ =>
    rw [List.replicate_succ, List.cons_append, sepGo_start_dash,
      sepGo_dashes l s 1 acc]
    have h : 1 + l = l + 1 := by omega
    rw [h]

lemma sepGo_render :
    ∀ (segs : List (Nat × Option Nat)), segs ≠ [] → (∀ p ∈ segs, 0 < p.1) →
      ∀ acc, sepGo (List.intercalate ['+'] (segs.map segRepr)) .start acc =
        some (acc.reverse ++ segs) := by
  intro segs
  induction segs with
  | nil => intro h; exact absurd rfl h
  | cons p rest ih =>
    intro _ hpos acc
    obtain ⟨l, hint⟩ := p
    have hl : 0 < l := hpos (l, hint) (by simp)
    match rest with
    | [] =>
      rw [List.map_singleton, intercalate_singleton]
      match hint with
      | none =>
        have hseg : segRepr (l, none) = List.replicate l '-' ++ [] := by
          simp [segRepr]
        rw [hseg, sepGo_dash_block hl [] acc]
        simp [sepGo]
      | some w =>
        have hseg : segRepr (l, some w) = List.replicate l '-' ++ natDigits w := by
          simp [segRepr]
        rw [hseg, show (natDigits w : List Char) = natDigits w ++ [] by simp,
          ← List.append_assoc, List.append_assoc (List.replicate l '-'),
          sepGo_dash_block hl (natDigits w ++ []) acc]
        rw [sepGo_enter_digits w [] l acc]
        simp [sepGo]
    | q :: rest2 =>
      have hpos2 : ∀ x ∈ q :: rest2, 0 < x.1 := fun x hx => hpos x (by simp [hx])
      have hmap : List.map segRepr ((l, hint) :: q :: rest2) =
          segRepr (l, hint) :: segRepr q :: List.map segRepr rest2 := by simp
      rw [hmap, intercalate_cons_cons]
      have hmap2 : segRepr q :: List.map segRepr rest2 = List.map segRepr (q :: rest2) := by
        simp
      rw [hmap2]
      match hint with
      | none =>
        have hseg : segRepr (l, none) = List.replicate l '-' := by
          simp [segRepr]
        rw [hseg, List.append_assoc,
          sepGo_dash_block hl ((['+'] : List Char) ++ List.intercalate ['+'] ((q :: rest2).map segRepr)) acc]
        rw [show ((['+'] : List Char) ++ List.intercalate ['+'] ((q :: rest2).map segRepr)) =
          '+' :: List.intercalate ['+'] ((q :: rest2).map segRepr) from rfl]
        rw [sepGo_dash_plus, ih (by simp) hpos2 ((l, none) :: acc)]
        simp
      | some w =>
        have hseg : segRepr (l, some w) = List.replicate l '-' ++ natDigits w := by
          simp [segRepr]
        rw [hseg, List.append_assoc, List.append_assoc,
          sepGo_dash_block hl
            (natDigits w ++ ((['+'] : List Char) ++ List.intercalate ['+'] ((q :: rest2).map segRepr))) acc]
        rw [sepGo_enter_digits w
          ((['+'] : List Char) ++ List.intercalate ['+'] ((q :: rest2).map segRepr)) l acc]
        rw [show ((['+'] : List Char) ++ List.intercalate ['+'] ((q :: rest2).map segRepr)) =
          '+' :: List.intercalate ['+'] ((q :: rest2).map segRepr) from rfl]
        rw [sepGo_digit_plus, ih (by simp) hpos2 ((l, some w) :: acc)]
        simp

lemma tryParse_toStringRepr (cols : List Nat) (vis : Option (List (Option Nat)))
    (hne : cols ≠ []) (hpos : ∀ l ∈ cols, 0 < l) :
    SeparatorLine.tryParse (SeparatorLine.toStringRepr ⟨cols, vis⟩) =
      some ⟨cols,
        if ((segsOf cols vis).map (·.2)).any Option.isSome then
          some (((segsOf cols vis).map (·.2)).map (fun v => some (v.getD 0)))
        else none⟩ := by
  obtain ⟨s0, ss, hsegs⟩ : ∃ s0 ss, segsOf cols vis = s0 :: ss := by
    match h : segsOf cols vis with
    | [] => exact absurd h (segsOf_ne_nil hne vis)
    | s0 :: ss => exact ⟨s0, ss, rfl⟩
  have hgo : sepGo (List.intercalate ['+'] ((segsOf cols vis).map segRepr)) .start [] =
      some (segsOf cols vis) := by
    simpa using sepGo_render (segsOf cols vis) (segsOf_ne_nil hne vis) (segsOf_pos hpos vis) []
  have hrepr : SeparatorLine.toStringRepr ⟨cols, vis⟩ =
      '+' :: (List.intercalate ['+'] ((segsOf cols vis).map segRepr) ++ ['+']) := by
    simp [SeparatorLine.toStringRepr, sepSegs_eq_map]
  have hfst := segsOf_fst cols vis
  rw [hsegs] at hgo hrepr hfst ⊢
  rw [hrepr]
  have hlast : ('+' :: (List.intercalate ['+'] ((s0 :: ss).map segRepr) ++ ['+'])).getLast?
      = some '+' := by
    rw [show ('+' :: (List.intercalate ['+'] ((s0 :: ss).map segRepr) ++ ['+'])) =
      ('+' :: List.intercalate ['+'] ((s0 :: ss).map segRepr)) ++ ['+'] by simp]
    exact List.getLast?_concat _
  simp only [SeparatorLine.tryParse, if_true]
  rw [if_pos hlast, List.dropLast_concat, hgo]
  simp [hfst]

/-! ## Shape of parsed visual widths -/

lemma tryParse_visual_shape (line : Str) (sep : SeparatorLine)
    (h : SeparatorLine.tryParse line = some sep) :
    sep.visualWidths = none ∨
      ∃ ws, sep.visualWidths = some ws ∧ ws.length = sep.columnLengths.length ∧
        ∀ w ∈ ws, w.isSome := by
  match line with
  | [] => simp [SeparatorLine.tryParse] at h
  | c :: rest =>
    simp only [SeparatorLine.tryParse] at h
    split at h
    · split at h
      · match hgo : sepGo rest.dropLast .start [] with
        | none => rw [hgo] at h; exact absurd h (by simp)
        | some segs =>
          rw [hgo] at h
          simp only at h
          split at h
          · exact absurd h (by simp)
          · rw [Option.some_inj] at h
            subst h
            by_cases hany : (segs.map (·.2)).any Option.isSome
            · right
              refine ⟨(segs.map (·.2)).map (fun v => some (v.getD 0)), by simp [hany],
                by simp, ?_⟩
              intro w hw
              simp only [List.mem_map] at hw
              obtain ⟨v, _, hv⟩ := hw
              rw [← hv]
              rfl
            · left
              simp [hany]
      · exact absurd h (by simp)
    · exact absurd h (by simp)

/-! ## Claims about the separator line grammar (C4, C5) -/

/-- C4 counterexample: on `"+-5+-+"` the second column has no digit run, yet
its `visualWidths` entry is the explicit `0` — identical to what the
explicitly hinted `"+-5+-0+"` produces — not a hint-absent marker. -/
theorem claim_C4_counterexample :
    SeparatorLine.tryParse ("+-5+-+".toList) = some ⟨[1, 1], some [some 5, some 0]⟩ ∧
    SeparatorLine.tryParse ("+-5+-0+".toList) = some ⟨[1, 1], some [some 5, some 0]⟩ := by
  decide

/-- C4 (amended): for a valid separator rendered with hint list `hints`
(one entry per column), parsing the rendered line decodes each hinted column
to its integer and fills each unhinted column with `0` (not a distinguishable
hint-absent marker); when no column is hinted, `visualWidths` is absent
entirely.  Moreover, whenever `tryParse` accepts any line, the resulting
`visualWidths` is either absent or a parallel list of explicit integers. -/
theorem claim_C4_visual_width_decoding (cols : List Nat) (hints : List (Option Nat))
    (hne : cols ≠ []) (hpos : ∀ l ∈ cols, 0 < l) (hlen : hints.length = cols.length) :
    (SeparatorLine.tryParse (SeparatorLine.toStringRepr ⟨cols, some hints⟩) =
      some ⟨cols,
        if hints.any Option.isSome then some (hints.map (fun v => some (v.getD 0)))
        else none⟩) ∧
    ∀ (line : Str) (sep : SeparatorLine), SeparatorLine.tryParse line = some sep →
      sep.visualWidths = none ∨
        ∃ ws, sep.visualWidths = some ws ∧ ws.length = sep.columnLengths.length ∧
          ∀ w ∈ ws, w.isSome := by
  constructor
  · rw [tryParse_toStringRepr cols (some hints) hne hpos, segsOf_snd_of_len hints hlen]
  · exact tryParse_visual_shape

/-- Witness for C4 (amended) at `cols = [2,1]`, `hints = [some 10, none]`. -/
theorem claim_C4_visual_width_decoding_witness :
    SeparatorLine.tryParse (SeparatorLine.toStringRepr ⟨[2, 1], some [some 10, none]⟩) =
      some ⟨[2, 1], some [some 10, some 0]⟩ :=
  ((claim_C4_visual_width_decoding [2, 1] [some 10, none] (by decide) (by decide)
    (by decide)).1).trans (by decide)

/-- C5: for a valid separator line (non-empty, strictly positive column
lengths, hints absent or parallel), parsing its rendering succeeds and
recovers the same `columnLengths`. -/
theorem claim_C5_separator_symmetry (sep : SeparatorLine)
    (h1 : sep.columnLengths ≠ []) (h2 : ∀ l ∈ sep.columnLengths, 0 < l)
    (h3 : ∀ ws, sep.visualWidths = some ws → ws.length = sep.columnLengths.length) :
    ∃ sep2, SeparatorLine.tryParse sep.toStringRepr = some sep2 ∧
      sep2.columnLengths = sep.columnLengths := by
  obtain ⟨cols, vis⟩ := sep
  refine ⟨_, tryParse_toStringRepr cols vis h1 h2, ?_⟩
  rfl

/-- Witness for C5 at the separator `+--10+---+`. -/
theorem claim_C5_separator_symmetry_witness :
    ∃ sep2, SeparatorLine.tryParse
        (SeparatorLine.toStringRepr ⟨[2, 3], some [some 10, none]⟩) = some sep2 ∧
      sep2.columnLengths = [2, 3] :=
  claim_C5_separator_symmetry ⟨[2, 3], some [some 10, none]⟩ (by decide) (by decide)
    (fun ws h => by
      injection (show some [some 10, none] = some ws from h) with h2
      rw [← h2]
      rfl)

/-! ## Claims about the content-line parser and scanner (C9, C8, C10) -/

/-- C9: there is a line and a governing separator where content parsing
succeeds although the first column's fixed-width slice does not end in `|`;
the slice is silently skipped and the result has fewer `dataChunks` than the
separator has columns. -/
theorem claim_C9_silent_fragment_skip :
    ∃ (line : Str) (sep : SeparatorLine) (cl : ContentLine),
      ContentLine.tryParseAccordingToSepLine line sep = some cl ∧
      ((line.drop 1).take (sep.columnLengths.headD 0 + 1)).getLast? ≠ some '|' ∧
      cl.dataChunks.length < sep.columnLengths.length :=
  ⟨"|abc|".toList, ⟨[1, 3], none⟩, ⟨["abc".toList]⟩, by decide, by decide, by decide⟩

/-- C8: the scanner aborts to `[]` when the first line is not a separator
line; in particular on the spec's concrete garbage-prefixed input. -/
theorem claim_C8_scanner_totality_and_abort (first : Str) (rest : List Str)
    (h : SeparatorLine.tryParse first = none) :
    lookAheadForTableParts (first :: rest) = [] ∧
    lookAheadForTableParts
      ["hi".toList, "+-+--+".toList, "|a|b1|".toList, "+-+--+".toList] = [] := by
  constructor
  · simp [lookAheadForTableParts, h]
  · decide

/-- Witness for C8 at the spec's concrete input. -/
theorem claim_C8_scanner_totality_and_abort_witness :
    lookAheadForTableParts
      ("hi".toList :: ["+-+--+".toList, "|a|b1|".toList, "+-+--+".toList]) = [] :=
  (claim_C8_scanner_totality_and_abort ("hi".toList)
    ["+-+--+".toList, "|a|b1|".toList, "+-+--+".toList] (by decide)).1

lemma contentGo_length_le (cols : List Nat) :
    ∀ (line : List Char) (res : List Str), contentGo cols line = some res →
      res.length ≤ cols.length := by
  induction cols with
  | nil =>
    intro line res h
    simp only [contentGo] at h
    split at h
    · rw [Option.some_inj] at h
      subst h
      simp
    · exact absurd h (by simp)
  | cons c cs ih =>
    intro line res h
    simp only [contentGo] at h
    split at h
    · exact absurd h (by simp)
    · split at h
      · exact le_trans (ih line res h) (by simp)
      · rw [Option.map_eq_some'] at h
        obtain ⟨r2, hr2, hres⟩ := h
        subst hres
        simpa using ih _ r2 hr2

lemma tryParseContent_length_le (line : Str) (sep : SeparatorLine) (cl : ContentLine)
    (h : ContentLine.tryParseAccordingToSepLine line sep = some cl) :
    cl.dataChunks.length ≤ sep.columnLengths.length := by
  match line with
  | [] => simp [ContentLine.tryParseAccordingToSepLine] at h
  | c :: rest =>
    simp only [ContentLine.tryParseAccordingToSepLine] at h
    split at h
    · rw [Option.map_eq_some'] at h
      obtain ⟨r2, hr2, hcl⟩ := h
      subst hcl
      exact contentGo_length_le sep.columnLengths rest r2 hr2
    · exact absurd h (by simp)

lemma lookAheadRest_content_le (s : SeparatorLine) :
    ∀ (ls : List Str) (cl : ContentLine), TablePart.content cl ∈ lookAheadRest s ls →
      cl.dataChunks.length ≤ s.columnLengths.length := by
  intro ls
  induction ls with
  | nil => intro cl h; simp [lookAheadRest] at h
  | cons line rest ih =>
    intro cl h
    simp only [lookAheadRest] at h
    match htp : SeparatorLine.tryParse line with
    | some s2 =>
      rw [htp] at h
      simp only [List.mem_cons] at h
      rcases h with h | h
      · exact absurd h (by simp)
      · exact ih cl h
    | none =>
      rw [htp] at h
      match hcp : ContentLine.tryParseAccordingToSepLine line s with
      | some c2 =>
        rw [hcp] at h
        simp only [List.mem_cons] at h
        rcases h with h | h
        · have : cl = c2 := by simpa using h
          subst this
          exact tryParseContent_length_le line s cl hcp
        · exact ih cl h
      | none =>
        rw [hcp] at h
        simp at h

/-- C10: a non-empty scanner result starts with a separator line, and every
content line in it was parsed against that first separator, so its chunk
count is at most the first separator's column count. -/
theorem claim_C10_scanner_result_invariant (lines : List Str)
    (h : lookAheadForTableParts lines ≠ []) :
    ∃ s rest, lookAheadForTableParts lines = TablePart.sep s :: rest ∧
      ∀ cl : ContentLine, TablePart.content cl ∈ rest →
        cl.dataChunks.length ≤ s.columnLengths.length := by
  match lines with
  | [] => exact absurd rfl h
  | line :: ls =>
    match htp : SeparatorLine.tryParse line with
    | none =>
      rw [show lookAheadForTableParts (line :: ls) = [] by
        simp [lookAheadForTableParts, htp]] at h
      exact absurd rfl h
    | some s =>
      refine ⟨s, lookAheadRest s ls, by simp [lookAheadForTableParts, htp], ?_⟩
      exact fun cl hc => lookAheadRest_content_le s ls cl hc

/-- Witness for C10 at a two-line table prefix containing a skipped slice. -/
theorem claim_C10_scanner_result_invariant_witness :
    ∃ s rest, lookAheadForTableParts ["+-+---+".toList, "|abc|".toList] =
      TablePart.sep s :: rest ∧
      ∀ cl : ContentLine, TablePart.content cl ∈ rest →
        cl.dataChunks.length ≤ s.columnLengths.length :=
  claim_C10_scanner_result_invariant ["+-+---+".toList, "|abc|".toList] (by decide)

/-! ## Claim C6: validator boundary rejection -/

/-- C6: `isValidTableSpec` returns `false` (raising no error) for fewer than
3 parts, a non-separator first part, or a non-separator last part; in
particular `[sep, sep]` is rejected for any separator. -/
theorem claim_C6_validator_boundary (parts : List TablePart) (s : SeparatorLine)
    (h : parts.length < 3 ∨
      (∃ p, parts.head? = some p ∧ p.isSep = false) ∨
      (∃ p, parts.getLast? = some p ∧ p.isSep = false)) :
    isValidTableSpec parts = some false ∧
    isValidTableSpec [TablePart.sep s, TablePart.sep s] = some false := by
  constructor
  · rcases h with h | ⟨p, hp, hps⟩ | ⟨p, hp, hps⟩
    · simp [isValidTableSpec, h]
    · by_cases hlen : parts.length < 3
      · simp [isValidTableSpec, hlen]
      · match parts, hp with
        | q :: rest, hp =>
          have hq : q = p := by simpa using hp
          subst hq
          match q, hps with
          | TablePart.content c, _ => simp [isValidTableSpec, hlen]
    · by_cases hlen : parts.length < 3
      · simp [isValidTableSpec, hlen]
      · match parts with
        | TablePart.content c :: rest => simp [isValidTableSpec, hlen]
        | TablePart.sep fs :: rest =>
          simp only [isValidTableSpec, if_neg hlen]
          rw [hp]
          match p, hps with
          | TablePart.content c, _ => simp
  · simp [isValidTableSpec]

/-- Witness for C6 at a single-content-part list and the separator `+-+`. -/
theorem claim_C6_validator_boundary_witness :
    isValidTableSpec [TablePart.content ⟨[]⟩] = some false ∧
    isValidTableSpec [TablePart.sep ⟨[1], none⟩, TablePart.sep ⟨[1], none⟩] =
      some false :=
  claim_C6_validator_boundary [TablePart.content ⟨[]⟩] ⟨[1], none⟩ (Or.inl (by decide))

/-! ## Claim C2: separator width floor -/

lemma fallbackWidth_pos (cw : Nat) : 1 ≤ fallbackWidth cw := by
  unfold fallbackWidth
  split <;> omega

lemma adjustWidth_pos (cw : Nat) (b : Int) : 1 ≤ adjustWidth cw b := by
  unfold adjustWidth
  split
  · exact fallbackWidth_pos cw
  · exact le_trans (fallbackWidth_pos cw) (le_max_right _ _)

lemma fallbackWidth_floor (cw : Nat) : 0 < cw → cw + 2 ≤ fallbackWidth cw := by
  intro h
  unfold fallbackWidth
  split <;> omega

lemma adjustWidth_floor (cw : Nat) (b : Int) : 0 < cw → cw + 2 ≤ adjustWidth cw b := by
  intro h
  unfold adjustWidth
  split
  · exact fallbackWidth_floor cw h
  · exact le_trans (fallbackWidth_floor cw h) (le_max_right _ _)

lemma baseAdjustedWidths_getD (cws : List Nat) :
    ∀ (bs : List Int) (i : Nat), i < cws.length →
      (baseAdjustedWidths cws bs).getD i 0 = adjustWidth (cws.getD i 0) (bs.getD i 0) := by
  induction cws with
  | nil => intro bs i hi; simp at hi
  | cons cw cws ih =>
    intro bs i hi
    match bs, i with
    | [], 0 =>
      show fallbackWidth cw = adjustWidth cw 0
      simp [adjustWidth]
    | [], i + 1 =>
      have := ih [] i (by simpa using hi)
      simpa [baseAdjustedWidths] using this
    | b :: bs, 0 => simp [baseAdjustedWidths]
    | b :: bs, i + 1 =>
      have := ih bs i (by simpa using hi)
      simpa [baseAdjustedWidths] using this

lemma separatorWidthsOf_getD (colW : List Nat) (base : Option (List Int)) (i : Nat)
    (hi : i < colW.length) :
    ((colW.getD i 0 = 0 → 1 ≤ (separatorWidthsOf colW base).getD i 0) ∧
     (0 < colW.getD i 0 →
        colW.getD i 0 + 2 ≤ (separatorWidthsOf colW base).getD i 0)) := by
  have hmap : (colW.map fallbackWidth).getD i 0 = fallbackWidth (colW.getD i 0) := by
    rw [List.getD_eq_getElem?_getD, List.getElem?_map, List.getD_eq_getElem?_getD]
    cases hx : colW[i]? with
    | none => rw [List.getElem?_eq_none_iff] at hx; omega
    | some x => simp
  match base with
  | none =>
    simp only [separatorWidthsOf]
    rw [hmap]
    exact ⟨fun _ => fallbackWidth_pos _, fun h => fallbackWidth_floor _ h⟩
  | some bs =>
    simp only [separatorWidthsOf]
    by_cases hb : 0 < bs.length
    · rw [if_pos hb, baseAdjustedWidths_getD colW bs i hi]
      exact ⟨fun _ => adjustWidth_pos _ _, fun h => adjustWidth_floor _ _ h⟩
    · rw [if_neg hb, hmap]
      exact ⟨fun _ => fallbackWidth_pos _, fun h => fallbackWidth_floor _ h⟩

lemma sep_mem_serializeParts (t : TableContent) (base : Option (List Int))
    (vis : Option (List Nat)) (s : SeparatorLine)
    (hs : TablePart.sep s ∈ serializeParts t base vis) :
    s.columnLengths = separatorWidthsOf (colContentWidths t) base := by
  unfold serializeParts at hs
  rw [List.mem_append] at hs
  rcases hs with hs | hs
  · rw [List.mem_flatten] at hs
    obtain ⟨block, hb, hsb⟩ := hs
    rw [List.mem_map] at hb
    obtain ⟨row, _, hrow⟩ := hb
    subst hrow
    rcases List.mem_cons.1 hsb with h | h
    · injection h with h2
      rw [h2]
    · rw [List.mem_map] at h
      obtain ⟨c, _, hc⟩ := h
      exact absurd hc (by simp)
  · have := List.mem_singleton.1 hs
    injection this with h2
    rw [h2]

/-- C2 counterexample: a one-row table with a single empty cell and base
widths `[1]` serializes with separator column width `1`, below the claimed
floor of max-content-length (`0`) plus `2`. -/
theorem claim_C2_counterexample :
    colContentWidths ⟨[⟨[⟨[]⟩]⟩]⟩ = [0] ∧
    tableContentToString ⟨[⟨[⟨[]⟩]⟩]⟩ (some [1]) none =
      some ("+-+\n| |\n+-+".toList) ∧
    SeparatorLine.tryParse ("+-+".toList) = some ⟨[1], none⟩ ∧
    ¬ (0 + 2 ≤ 1) := by
  refine ⟨by decide, by decide, by decide, by omega⟩

/-- C2 (amended): every separator line produced by `tableContentToString`
carries column widths at least the column's maximum content line length + 2
for non-empty columns, and at least `1` for columns whose maximum content
length is `0` (where the code intentionally emits a single-dash column). -/
theorem claim_C2_width_floor (t : TableContent) (base : Option (List Int))
    (vis : Option (List Nat)) (s : SeparatorLine)
    (hs : TablePart.sep s ∈ serializeParts t base vis)
    (i : Nat) (hi : i < (colContentWidths t).length) :
    ((colContentWidths t).getD i 0 = 0 → 1 ≤ s.columnLengths.getD i 0) ∧
    (0 < (colContentWidths t).getD i 0 →
      (colContentWidths t).getD i 0 + 2 ≤ s.columnLengths.getD i 0) := by
  rw [sep_mem_serializeParts t base vis s hs]
  exact separatorWidthsOf_getD (colContentWidths t) base i hi

/-- Witness for C2 (amended): the first separator of a one-row one-cell table
with content `"ab"` and requested base width `1` has width `4 = 2 + 2`. -/
theorem claim_C2_width_floor_witness :
    ((colContentWidths ⟨[⟨[⟨"ab".toList⟩]⟩]⟩).getD 0 0 = 0 →
      1 ≤ (([4] : List Nat)).getD 0 0) ∧
    (0 < (colContentWidths ⟨[⟨[⟨"ab".toList⟩]⟩]⟩).getD 0 0 →
      (colContentWidths ⟨[⟨[⟨"ab".toList⟩]⟩]⟩).getD 0 0 + 2 ≤
        (([4] : List Nat)).getD 0 0) :=
  claim_C2_width_floor ⟨[⟨[⟨"ab".toList⟩]⟩]⟩ (some [1]) none ⟨[4], none⟩
    (by decide) 0 (by decide)

/-! ## Claim C3: concrete serialization -/

/-- C3 counterexample: on the claim's one-row table the serializer does not
produce the claimed four-line text (whose second column is 8 wide); the
second column's only content is `"x"`, so it is rendered 3 wide. -/
theorem claim_C3_counterexample :
    tableContentToString ⟨[⟨[⟨"ab\ncd".toList⟩, ⟨"x".toList⟩]⟩]⟩ none none ≠
      some ("+----+--------+\n| ab | x      |\n| cd |        |\n+----+--------+".toList) := by
  decide

/-- C3 (amended): on the claim's one-row table
`Table([Row([Cell("ab\ncd"), Cell("x")])])`, with no base widths and no
visual widths, the serializer produces exactly
`"+----+---+\n| ab | x |\n| cd |   |\n+----+---+"`. -/
theorem claim_C3_concrete_serialization :
    tableContentToString ⟨[⟨[⟨"ab\ncd".toList⟩, ⟨"x".toList⟩]⟩]⟩ none none =
      some ("+----+---+\n| ab | x |\n| cd |   |\n+----+---+".toList) := by
  decide

/-! ## Claim C7: converter postcondition

`specRowOfGroup`/`specRows` restate the spec's description of the converter
("each cell's content is the newline-join of that column's right-trimmed
content-line fragments between consecutive separators") for comparison with
`validSpecToTableContent`. -/

/-- One row as the spec describes it: cell `i` joins the `i`-th right-trimmed
fragment of each content line in the group with `"\n"`. -/
def specRowOfGroup (cols : Nat) (group : List ContentLine) : TableRow :=
  ⟨(List.range cols).map (fun i =>
    ⟨List.intercalate ['\n'] (group.map (fun c => trimEnd (c.dataChunks.getD i [])))⟩)⟩

/-- The rows as the spec describes them: one row per separator, built from
the content lines accumulated since the previous separator. -/
def specRows (cols : Nat) : List TablePart → List ContentLine → List TableRow
  | [], _ => []
  | TablePart.sep _ :: rest, acc => specRowOfGroup cols acc :: specRows cols rest []
  | TablePart.content c :: rest, acc => specRows cols rest (acc ++ [c])

/-- The column count of the leading separator (`0` when there is none). -/
def headSepColCount : List TablePart → Nat
  | TablePart.sep s :: _ => s.columnLengths.length
  | _ => 0

/-- Whether a part's chunk count fits within `cols` (trivially true for
separators). -/
def chunksAtMost (cols : Nat) : TablePart → Bool
  | TablePart.sep _ => true
  | TablePart.content cl => cl.dataChunks.length ≤ cols

/-- The converter's per-column buffers after accumulating `acc`. -/
def bufsOf (cols : Nat) (acc : List ContentLine) : List (List Str) :=
  (List.range cols).map (fun i => acc.map (fun c => trimEnd (c.dataChunks.getD i [])))

lemma bufsOf_nil (cols : Nat) : bufsOf cols [] = List.replicate cols [] := by
  simp [bufsOf, List.map_const']

lemma pushChunks_zipWith :
    ∀ (bufs : List (List Str)) (chunks : List Str), bufs.length = chunks.length →
      pushChunks bufs chunks =
        some (List.zipWith (fun b ch => b ++ [trimEnd ch]) bufs chunks) := by
  intro bufs
  induction bufs with
  | nil =>
    intro chunks h
    match chunks, h with
    | [], _ => rfl
  | cons b bs ih =>
    intro chunks h
    match chunks with
    | ch :: chs => simp [pushChunks, ih chs (by simpa using h)]

lemma zipWith_bufsOf (cols : Nat) (acc : List ContentLine) (c : ContentLine)
    (hc : c.dataChunks.length = cols) :
    List.zipWith (fun b ch => b ++ [trimEnd ch]) (bufsOf cols acc) c.dataChunks =
      bufsOf cols (acc ++ [c]) := by
  apply List.ext_getElem
  · simp [bufsOf, hc]
  · intro i h1 h2
    rw [List.getElem_zipWith]
    simp only [bufsOf, List.getElem_map, List.getElem_range, List.map_append,
      List.map_cons, List.map_nil]
    have hi : i < c.dataChunks.length := by
      simpa [bufsOf, hc] using h2
    rw [List.getD_eq_getElem _ _ hi]

lemma pushChunks_bufsOf (cols : Nat) (acc : List ContentLine) (c : ContentLine)
    (hc : c.dataChunks.length = cols) :
    pushChunks (bufsOf cols acc) c.dataChunks = some (bufsOf cols (acc ++ [c])) := by
  rw [pushChunks_zipWith (bufsOf cols acc) c.dataChunks (by simp [bufsOf, hc]),
    zipWith_bufsOf cols acc c hc]

lemma flushRow_bufsOf (cols : Nat) (acc : List ContentLine) :
    flushRow (bufsOf cols acc) = specRowOfGroup cols acc := by
  simp [flushRow, bufsOf, specRowOfGroup, List.map_map]

lemma checkContentChunks_ge :
    ∀ (cols : List Nat) (chunks : List Str), checkContentChunks cols chunks = some true →
      cols.length ≤ chunks.length := by
  intro cols
  induction cols with
  | nil => intro chunks _; simp
  | cons e es ih =>
    intro chunks h
    match chunks with
    | [] => simp [checkContentChunks] at h
    | c :: cs =>
      simp only [checkContentChunks] at h
      split at h
      · exact absurd h (by simp)
      · simpa using ih cs h

lemma convGo_spec (firstCols : List Nat) :
    ∀ (rest : List TablePart) (sepOk : Bool) (acc : List ContentLine)
      (rowsAcc : List TableRow),
      validLoop firstCols rest sepOk = some true →
      (∀ cl : ContentLine, TablePart.content cl ∈ rest →
        cl.dataChunks.length ≤ firstCols.length) →
      convGo rest (bufsOf firstCols.length acc) false rowsAcc =
        some (rowsAcc ++ specRows firstCols.length rest acc) := by
  intro rest
  induction rest with
  | nil =>
    intro sepOk acc rowsAcc _ _
    simp [convGo, specRows]
  | cons p rest2 ih =>
    intro sepOk acc rowsAcc hv hch
    match p with
    | TablePart.sep s =>
      simp only [validLoop] at hv
      split at hv
      · exact absurd hv (by simp)
      · split at hv
        · exact absurd hv (by simp)
        · rename_i hok hcols
          rw [not_ne_iff] at hcols
          simp only [convGo, specRows]
          rw [if_neg (by simp)]
          rw [hcols, ← bufsOf_nil firstCols.length]
          rw [ih false [] (rowsAcc ++ [flushRow (bufsOf firstCols.length acc)]) hv
            (fun cl hc => hch cl (by simp [hc]))]
          rw [flushRow_bufsOf]
          simp
    | TablePart.content c =>
      simp only [validLoop] at hv
      match hcc : checkContentChunks firstCols c.dataChunks with
      | none => rw [hcc] at hv; exact absurd hv (by simp)
      | some false => rw [hcc] at hv; exact absurd hv (by simp)
      | some true =>
        rw [hcc] at hv
        have hge := checkContentChunks_ge firstCols c.dataChunks hcc
        have hle := hch c (by simp)
        have hlen : c.dataChunks.length = firstCols.length := by omega
        simp only [convGo]
        rw [pushChunks_bufsOf firstCols.length acc c hlen]
        simp only [specRows]
        exact ih true (acc ++ [c]) rowsAcc hv (fun cl hc => hch cl (by simp [hc]))

lemma specRows_length (cols : Nat) :
    ∀ (rest : List TablePart) (acc : List ContentLine),
      (specRows cols rest acc).length = rest.countP TablePart.isSep := by
  intro rest
  induction rest with
  | nil => intro acc; simp [specRows]
  | cons p rest2 ih =>
    intro acc
    match p with
    | TablePart.sep s => simp [specRows, ih, List.countP_cons, TablePart.isSep]
    | TablePart.content c => simp [specRows, ih, List.countP_cons, TablePart.isSep]

lemma valid_shape (parts : List TablePart) (h : isValidTableSpec parts = some true) :
    ∃ first rest, parts = TablePart.sep first :: rest ∧
      validLoop first.columnLengths rest false = some true := by
  unfold isValidTableSpec at h
  split at h
  · exact absurd h (by simp)
  · rename_i hlen
    match parts, h with
    | [], h => exact absurd (by simp) hlen
    | TablePart.content c :: rest, h => exact absurd h (by simp)
    | TablePart.sep first :: rest, h =>
      refine ⟨first, rest, rfl, ?_⟩
      match hl : (TablePart.sep first :: rest).getLast? with
      | some (TablePart.sep s2) => rw [hl] at h; exact h
      | some (TablePart.content c2) => rw [hl] at h; exact absurd h (by simp)
      | none => rw [hl] at h; exact absurd h (by simp)

/-- C7 counterexample: `[Sep([1]), Content(["a","b"]), Sep([1])]` satisfies
`isValidTableSpec`, yet `validSpecToTableContent` raises a TypeError (pushing
into a missing column buffer) instead of returning a Table. -/
theorem claim_C7_counterexample :
    isValidTableSpec
      [TablePart.sep ⟨[1], none⟩, TablePart.content ⟨["a".toList, "b".toList]⟩,
       TablePart.sep ⟨[1], none⟩] = some true ∧
    validSpecToTableContent
      [TablePart.sep ⟨[1], none⟩, TablePart.content ⟨["a".toList, "b".toList]⟩,
       TablePart.sep ⟨[1], none⟩] = none := by
  decide

/-- C7 (amended): for every parts sequence satisfying `isValidTableSpec` in
which every content line has at most as many `dataChunks` as the first
separator has columns, `validSpecToTableContent` returns a Table equal to the
spec-described one (cell = newline-join of the column's right-trimmed
fragments between consecutive separators) whose row count is the number of
separator parts minus 1. -/
theorem claim_C7_converter_postcondition (parts : List TablePart)
    (hvalid : isValidTableSpec parts = some true)
    (hchunks : ∀ p ∈ parts, chunksAtMost (headSepColCount parts) p = true) :
    ∃ first rest, parts = TablePart.sep first :: rest ∧
      validSpecToTableContent parts =
        some ⟨specRows first.columnLengths.length rest []⟩ ∧
      (specRows first.columnLengths.length rest []).length =
        parts.countP TablePart.isSep - 1 := by
  obtain ⟨first, rest, hshape, hv⟩ := valid_shape parts hvalid
  refine ⟨first, rest, hshape, ?_, ?_⟩
  · subst hshape
    unfold validSpecToTableContent
    simp only [convGo, if_true]
    rw [← bufsOf_nil first.columnLengths.length]
    rw [convGo_spec first.columnLengths rest false [] [] hv ?_]
    · simp
    · intro cl hc
      have := hchunks (TablePart.content cl) (by simp [hc])
      simpa [chunksAtMost, headSepColCount] using this
  · subst hshape
    rw [specRows_length]
    simp [List.countP_cons, TablePart.isSep]

/-- Witness for C7 (amended) at the claim's concrete six-part example, whose
converted table is `[["hi\nyo", "ther\neyou"], ["wo", "ohoo"]]`. -/
theorem claim_C7_converter_postcondition_witness :
    (∃ first rest,
      ([TablePart.sep ⟨[4, 6], none⟩, TablePart.content ⟨["hi".toList, "ther".toList]⟩,
        TablePart.content ⟨["yo".toList, "eyou".toList]⟩, TablePart.sep ⟨[4, 6], none⟩,
        TablePart.content ⟨["wo".toList, "ohoo".toList]⟩, TablePart.sep ⟨[4, 6], none⟩]
        : List TablePart) = TablePart.sep first :: rest ∧
      validSpecToTableContent
        [TablePart.sep ⟨[4, 6], none⟩, TablePart.content ⟨["hi".toList, "ther".toList]⟩,
         TablePart.content ⟨["yo".toList, "eyou".toList]⟩, TablePart.sep ⟨[4, 6], none⟩,
         TablePart.content ⟨["wo".toList, "ohoo".toList]⟩, TablePart.sep ⟨[4, 6], none⟩] =
        some ⟨specRows first.columnLengths.length rest []⟩ ∧
      (specRows first.columnLengths.length rest []).length =
        ([TablePart.sep ⟨[4, 6], none⟩, TablePart.content ⟨["hi".toList, "ther".toList]⟩,
          TablePart.content ⟨["yo".toList, "eyou".toList]⟩, TablePart.sep ⟨[4, 6], none⟩,
          TablePart.content ⟨["wo".toList, "ohoo".toList]⟩, TablePart.sep ⟨[4, 6], none⟩]
          : List TablePart).countP TablePart.isSep - 1) ∧
    validSpecToTableContent
      [TablePart.sep ⟨[4, 6], none⟩, TablePart.content ⟨["hi".toList, "ther".toList]⟩,
       TablePart.content ⟨["yo".toList, "eyou".toList]⟩, TablePart.sep ⟨[4, 6], none⟩,
       TablePart.content ⟨["wo".toList, "ohoo".toList]⟩, TablePart.sep ⟨[4, 6], none⟩] =
      some ⟨[⟨[⟨"hi\nyo".toList⟩, ⟨"ther\neyou".toList⟩]⟩,
             ⟨[⟨"wo".toList⟩, ⟨"ohoo".toList⟩]⟩]⟩ :=
  ⟨claim_C7_converter_postcondition _ (by decide) (by decide), by decide⟩

/-! ## String utilities for the round-trip proof -/

lemma splitNl_ne_nil (s : Str) : splitNl s ≠ [] := by
  induction s with
  | nil => simp [splitNl]
  | cons c rest ih =>
    simp only [splitNl]
    split
    · simp
    · match h : splitNl rest with
      | [] => exact absurd h ih
      | f :: fs => simp

lemma splitNl_no_newline (s : Str) : ∀ f ∈ splitNl s, '\n' ∉ f := by
  induction s with
  | nil => intro f hf; simp [splitNl] at hf; simp [hf]
  | cons c rest ih =>
    intro f hf
    simp only [splitNl] at hf
    by_cases hc : c = '\n'
    · rw [if_pos hc] at hf
      rcases List.mem_cons.1 hf with h | h
      · simp [h]
      · exact ih f h
    · rw [if_neg hc] at hf
      match hs : splitNl rest, hf with
      | [], hf => exact absurd hs (splitNl_ne_nil rest)
      | g :: gs, hf =>
        rw [hs] at ih
        rcases List.mem_cons.1 hf with h | h
        · subst h
          intro hmem
          rcases List.mem_cons.1 hmem with h2 | h2
          · exact hc h2.symm
          · exact ih g (by simp) h2
        · exact ih f (by simp [h])

lemma splitNl_cons_ne {c : Char} (hc : c ≠ '\n') (s : Str) (g : Str) (gs : List Str)
    (h : splitNl s = g :: gs) : splitNl (c :: s) = (c :: g) :: gs := by
  simp only [splitNl, if_neg hc, h]

lemma intercalate_splitNl (s : Str) : List.intercalate ['\n'] (splitNl s) = s := by
  induction s with
  | nil => simp [splitNl, intercalate_singleton]
  | cons c rest ih =>
    by_cases hc : c = '\n'
    · subst hc
      simp only [splitNl, if_pos rfl]
      match hs : splitNl rest, ih with
      | [], _ => exact absurd hs (splitNl_ne_nil rest)
      | g :: gs, ih => simp [intercalate_cons_cons, ih]
    · match hs : splitNl rest, ih with
      | [], _ => exact absurd hs (splitNl_ne_nil rest)
      | [g], ih =>
        rw [splitNl_cons_ne hc rest g [] hs, intercalate_singleton]
        rw [intercalate_singleton] at ih
        simp [ih]
      | g :: g2 :: gs, ih =>
        rw [splitNl_cons_ne hc rest g (g2 :: gs) hs, intercalate_cons_cons]
        rw [intercalate_cons_cons] at ih
        simpa using ih

lemma splitNl_of_no_newline (s : Str) (h : '\n' ∉ s) : splitNl s = [s] := by
  induction s with
  | nil => rfl
  | cons c rest ih =>
    have hc : c ≠ '\n' := fun he => h (by simp [he])
    exact splitNl_cons_ne hc rest rest [] (ih (fun hm => h (by simp [hm])))

lemma splitNl_append_newline (a : Str) (ha : '\n' ∉ a) (s : Str) :
    splitNl (a ++ '\n' :: s) = a :: splitNl s := by
  induction a with
  | nil => simp [splitNl]
  | cons c rest ih =>
    have hc : c ≠ '\n' := fun he => ha (by simp [he])
    rw [List.cons_append]
    exact splitNl_cons_ne hc _ rest (splitNl s) (ih (fun hm => ha (by simp [hm])))

lemma splitNl_intercalate (ls : List Str) (hne : ls ≠ [])
    (h : ∀ l ∈ ls, '\n' ∉ l) : splitNl (List.intercalate ['\n'] ls) = ls := by
  induction ls with
  | nil => exact absurd rfl hne
  | cons a ls ih =>
    match ls with
    | [] =>
      rw [intercalate_singleton]
      exact splitNl_of_no_newline a (h a (by simp))
    | b :: ls2 =>
      rw [intercalate_cons_cons, List.append_assoc,
        show (['\n'] ++ List.intercalate ['\n'] (b :: ls2)) =
          '\n' :: List.intercalate ['\n'] (b :: ls2) from rfl]
      rw [splitNl_append_newline a (h a (by simp))]
      rw [ih (by simp) (fun l hl => h l (by simp [hl]))]

lemma dropWhile_replicate_append {p : Char → Bool} {a : Char} (hp : p a = true)
    (k : Nat) (x : List Char) :
    List.dropWhile p (List.replicate k a ++ x) = List.dropWhile p x := by
  induction k with
  | zero => simp
  | succ k ih => simp [List.replicate_succ, List.dropWhile, hp, ih]

lemma trimEnd_append_spaces (s : Str) (k : Nat) :
    trimEnd (s ++ List.replicate k ' ') = trimEnd s := by
  unfold trimEnd
  rw [List.reverse_append, List.reverse_replicate,
    dropWhile_replicate_append (by decide : isJsSpace ' ' = true)]

lemma trimEnd_padEnd (s : Str) (p : Nat) : trimEnd (padEnd s p) = trimEnd s := by
  unfold padEnd
  exact trimEnd_append_spaces s _

lemma foldl_max_ge_init (b : Nat) (xs : List Nat) : b ≤ xs.foldl max b := by
  induction xs generalizing b with
  | nil => simp
  | cons x xs ih => exact le_trans (le_max_left b x) (ih (max b x))

lemma foldl_max_ge_mem (xs : List Nat) :
    ∀ (b : Nat) (x : Nat), x ∈ xs → x ≤ xs.foldl max b := by
  induction xs with
  | nil => intro b x hx; simp at hx
  | cons y ys ih =>
    intro b x hx
    rcases List.mem_cons.1 hx with h | h
    · subst h
      exact le_trans (le_max_right b x) (foldl_max_ge_init (max b x) ys)
    · exact ih (max b y) x h

lemma listMax_ge_mem (xs : List Nat) (x : Nat) (hx : x ∈ xs) : x ≤ listMax xs :=
  foldl_max_ge_mem xs 0 x hx

lemma foldl_max_all_eq (k : Nat) (xs : List Nat) (h : ∀ x ∈ xs, x = k) :
    xs.foldl max k = k := by
  induction xs with
  | nil => rfl
  | cons y ys ih =>
    have hy : y = k := h y (by simp)
    subst hy
    simp only [List.foldl_cons, max_self]
    exact ih (fun x hx => h x (by simp [hx]))

lemma listMax_all_eq (k : Nat) (xs : List Nat) (hne : xs ≠ [])
    (h : ∀ x ∈ xs, x = k) : listMax xs = k := by
  match xs with
  | y :: ys =>
    have hy : y = k := h y (by simp)
    subst hy
    unfold listMax
    simp only [List.foldl_cons, Nat.zero_max]
    exact foldl_max_all_eq y ys (fun x hx => h x (by simp [hx]))

lemma getD_map {α β : Type} (f : α → β) (l : List α) (i : Nat) (hi : i < l.length)
    (d : β) (d2 : α) : (l.map f).getD i d = f (l.getD i d2) := by
  rw [List.getD_eq_getElem _ _ (by simpa using hi), List.getD_eq_getElem _ _ hi,
    List.getElem_map]

lemma range_map_getD {α : Type} (l : List α) (d : α) :
    (List.range l.length).map (fun i => l.getD i d) = l := by
  apply List.ext_getElem
  · simp
  · intro i h1 h2
    simp only [List.getElem_map, List.getElem_range]
    rw [List.getD_eq_getElem _ _ h2]

/-! ## Column width bounds -/

lemma updateColWidths_length (cs : List TableCell) :
    ∀ acc : List Nat, (updateColWidths acc cs).length = max acc.length cs.length := by
  induction cs with
  | nil => intro acc; simp [updateColWidths]
  | cons c cs ih =>
    intro acc
    match acc with
    | [] => simp [updateColWidths, ih]
    | a :: as => simp [updateColWidths, ih]; omega

lemma foldl_updateColWidths_length (rows : List TableRow) (n : Nat)
    (h : ∀ r ∈ rows, r.cells.length = n) :
    ∀ acc : List Nat,
      (rows.foldl (fun a r => updateColWidths a r.cells) acc).length =
        if rows.isEmpty then acc.length else max acc.length n := by
  induction rows with
  | nil => intro acc; simp
  | cons r rs ih =>
    intro acc
    have hr : r.cells.length = n := h r (by simp)
    rw [List.foldl_cons, ih (fun x hx => h x (by simp [hx]))]
    simp only [List.isEmpty_cons, Bool.false_eq_true, if_false]
    rw [updateColWidths_length, hr]
    by_cases hrs : rs.isEmpty = true
    · rw [if_pos hrs]
    · rw [if_neg hrs]
      omega

lemma colContentWidths_length (t : TableContent) (n : Nat) (h1 : t.rows ≠ [])
    (h2 : ∀ r ∈ t.rows, r.cells.length = n) : (colContentWidths t).length = n := by
  unfold colContentWidths
  rw [foldl_updateColWidths_length t.rows n h2 []]
  simp [h1]

lemma updateColWidths_ge_acc (cs : List TableCell) :
    ∀ (acc : List Nat) (i : Nat), acc.getD i 0 ≤ (updateColWidths acc cs).getD i 0 := by
  induction cs with
  | nil => intro acc i; simp [updateColWidths]
  | cons c cs ih =>
    intro acc i
    match acc with
    | [] => simp
    | a :: as =>
      match i with
      | 0 => simp [updateColWidths]
      | i + 1 => simpa [updateColWidths] using ih as i

lemma updateColWidths_ge_cell (cs : List TableCell) :
    ∀ (acc : List Nat) (i : Nat) (c : TableCell), cs[i]? = some c →
      cellMaxWidth c ≤ (updateColWidths acc cs).getD i 0 := by
  induction cs with
  | nil => intro acc i c hc; simp at hc
  | cons c0 cs ih =>
    intro acc i c hc
    match i with
    | 0 =>
      have hc0 : c0 = c := by simpa using hc
      subst hc0
      match acc with
      | [] => simp [updateColWidths]
      | a :: as => simp [updateColWidths]
    | i + 1 =>
      have hc2 : cs[i]? = some c := by simpa using hc
      match acc with
      | [] => simpa [updateColWidths] using ih [] i c hc2
      | a :: as => simpa [updateColWidths] using ih as i c hc2

lemma foldl_updateColWidths_ge (rows : List TableRow) :
    ∀ (acc : List Nat) (i : Nat),
      acc.getD i 0 ≤ (rows.foldl (fun a r => updateColWidths a r.cells) acc).getD i 0 := by
  induction rows with
  | nil => intro acc i; simp
  | cons r rs ih =>
    intro acc i
    exact le_trans (updateColWidths_ge_acc r.cells acc i) (ih _ i)

lemma colContentWidths_ge (t : TableContent) :
    ∀ (row : TableRow), row ∈ t.rows → ∀ (i : Nat) (c : TableCell),
      row.cells[i]? = some c → cellMaxWidth c ≤ (colContentWidths t).getD i 0 := by
  unfold colContentWidths
  suffices h : ∀ (rows : List TableRow) (acc : List Nat) (row : TableRow), row ∈ rows →
      ∀ (i : Nat) (c : TableCell), row.cells[i]? = some c →
        cellMaxWidth c ≤ (rows.foldl (fun a r => updateColWidths a r.cells) acc).getD i 0 by
    intro row hrow i c hc
    exact h t.rows [] row hrow i c hc
  intro rows
  induction rows with
  | nil => intro acc row hrow; simp at hrow
  | cons r rs ih =>
    intro acc row hrow i c hc
    rcases List.mem_cons.1 hrow with h | h
    · subst h
      exact le_trans (updateColWidths_ge_cell row.cells acc i c hc)
        (foldl_updateColWidths_ge rs _ i)
    · exact ih _ row h i c hc

lemma subline_le_cellMaxWidth (c : TableCell) (f : Str) (hf : f ∈ splitNl c.content) :
    f.length ≤ cellMaxWidth c := by
  unfold cellMaxWidth
  exact listMax_ge_mem _ f.length (List.mem_map.2 ⟨f, hf, rfl⟩)

/-! ## Separator width facts for the round trip -/

lemma baseAdjustedWidths_length (cws : List Nat) :
    ∀ bs : List Int, (baseAdjustedWidths cws bs).length = cws.length := by
  induction cws with
  | nil => intro bs; simp [baseAdjustedWidths]
  | cons cw cws ih =>
    intro bs
    match bs with
    | [] => simp [baseAdjustedWidths, ih]
    | b :: bs => simp [baseAdjustedWidths, ih]

lemma separatorWidthsOf_length (colW : List Nat) (base : Option (List Int)) :
    (separatorWidthsOf colW base).length = colW.length := by
  match base with
  | none => simp [separatorWidthsOf]
  | some bs =>
    simp only [separatorWidthsOf]
    split
    · exact baseAdjustedWidths_length colW bs
    · simp

lemma fallbackWidth_ne_two (cw : Nat) : fallbackWidth cw ≠ 2 := by
  unfold fallbackWidth
  split <;> omega

lemma adjustWidth_eq_two (cw : Nat) (b : Int) (h : adjustWidth cw b = 2) :
    cw = 0 ∧ b = 2 := by
  unfold adjustWidth at h
  split at h
  · exact absurd h (fallbackWidth_ne_two cw)
  · rename_i hb
    have hf : fallbackWidth cw ≤ 2 := le_trans (le_max_right _ _) (le_of_eq h)
    have hcw : cw = 0 := by
      by_contra hne
      unfold fallbackWidth at hf
      rw [if_neg hne] at hf
      omega
    subst hcw
    have hf1 : fallbackWidth 0 = 1 := by simp [fallbackWidth]
    rw [hf1] at h
    refine ⟨rfl, ?_⟩
    have hbt : b.toNat = 2 := by omega
    omega

lemma sepW_ne_two (colW : List Nat) (W : List Int) (i : Nat) (hi : i < colW.length)
    (h6 : colW.getD i 0 = 0 → W.getD i 0 ≠ 2) :
    (separatorWidthsOf colW (some W)).getD i 0 ≠ 2 := by
  simp only [separatorWidthsOf]
  split
  · rw [baseAdjustedWidths_getD colW W i hi]
    intro h
    obtain ⟨hcw, hb⟩ := adjustWidth_eq_two _ _ h
    exact h6 hcw hb
  · rw [getD_map fallbackWidth colW i hi 0 0]
    exact fallbackWidth_ne_two _

lemma sepW_cw_zero_of_one (colW : List Nat) (base : Option (List Int)) (i : Nat)
    (hi : i < colW.length) (h : (separatorWidthsOf colW base).getD i 0 = 1) :
    colW.getD i 0 = 0 := by
  by_contra hne
  have := (separatorWidthsOf_getD colW base i hi).2 (by omega)
  omega

/-! ## Content line render/parse inversion -/

/-- Length of the rendered cell region of one chunk (`" "` or `" s "`). -/
def cellLen (s : Str) : Nat := if s = [] then 1 else s.length + 2

lemma cellRepr_length (s : Str) : (cellRepr s).length = cellLen s := by
  unfold cellRepr cellLen
  split <;> simp

lemma strip_cellRepr (s : Str) :
    (if (if (cellRepr s).head? = some ' ' then (cellRepr s).drop 1 else cellRepr s).getLast?
        = some ' ' then
      (if (cellRepr s).head? = some ' ' then (cellRepr s).drop 1 else cellRepr s).dropLast
    else (if (cellRepr s).head? = some ' ' then (cellRepr s).drop 1 else cellRepr s)) = s := by
  match s with
  | [] => rfl
  | c :: cs =>
    have h1 : cellRepr (c :: cs) = ' ' :: ((c :: cs) ++ [' ']) := by simp [cellRepr]
    rw [h1]
    rw [if_pos (show (' ' :: ((c :: cs) ++ [' '])).head? = some ' ' from rfl)]
    rw [show (' ' :: ((c :: cs) ++ [' '])).drop 1 = (c :: cs) ++ [' '] from rfl]
    rw [if_pos (List.getLast?_concat _), List.dropLast_concat]

lemma intercalate_map_concat {α : Type} (x : α) (ls : List (List α)) (hne : ls ≠ []) :
    List.intercalate [x] ls ++ [x] = (ls.map (· ++ [x])).flatten := by
  induction ls with
  | nil => exact absurd rfl hne
  | cons a ls ih =>
    match ls with
    | [] => simp [intercalate_singleton]
    | b :: ls2 =>
      rw [intercalate_cons_cons, List.map_cons, List.flatten_cons, ← ih (by simp)]
      simp [List.append_assoc]

lemma contentGo_repr :
    ∀ (chunks : List Str) (widths : List Nat),
      List.Forall₂ (fun ch w => cellLen ch = w) chunks widths →
      contentGo widths ((chunks.map (fun c => cellRepr c ++ ['|'])).flatten) = some chunks := by
  intro chunks widths hf
  induction hf with
  | nil => rfl
  | @cons ch w chs ws hcw _ ih =>
    rw [List.map_cons, List.flatten_cons]
    simp only [contentGo]
    have hlen : (cellRepr ch ++ ['|']).length = w + 1 := by
      rw [List.length_append, cellRepr_length, hcw]
      simp
    have htake : ((cellRepr ch ++ ['|']) ++ (chs.map (fun c => cellRepr c ++ ['|'])).flatten).take
        (w + 1) = cellRepr ch ++ ['|'] := by
      rw [← hlen]
      exact List.take_left _ _
    rw [htake, if_neg (not_ne_iff.2 hlen)]
    rw [if_neg (not_ne_iff.2 (List.getLast?_concat _))]
    have hdrop : ((cellRepr ch ++ ['|']) ++ (chs.map (fun c => cellRepr c ++ ['|'])).flatten).drop
        (w + 1) = (chs.map (fun c => cellRepr c ++ ['|'])).flatten := by
      rw [← hlen]
      exact List.drop_left _ _
    rw [hdrop, ih, List.dropLast_concat]
    rw [strip_cellRepr ch]
    rfl

lemma content_parse_repr (chunks : List Str) (widths : List Nat)
    (vis : Option (List (Option Nat))) (hne : chunks ≠ [])
    (hf : List.Forall₂ (fun ch w => cellLen ch = w) chunks widths) :
    ContentLine.tryParseAccordingToSepLine (ContentLine.toStringRepr ⟨chunks⟩)
      ⟨widths, vis⟩ = some ⟨chunks⟩ := by
  have hbody : ContentLine.toStringRepr ⟨chunks⟩ =
      '|' :: (chunks.map (fun c => cellRepr c ++ ['|'])).flatten := by
    unfold ContentLine.toStringRepr
    rw [show (ContentLine.mk chunks).dataChunks = chunks from rfl]
    rw [intercalate_map_concat '|' (chunks.map cellRepr) (by simpa using hne),
      List.map_map]
    rfl
  rw [hbody]
  simp only [ContentLine.tryParseAccordingToSepLine, if_true]
  rw [contentGo_repr chunks widths hf]
  rfl

lemma tryParse_contentRepr (cl : ContentLine) :
    SeparatorLine.tryParse cl.toStringRepr = none := by
  unfold ContentLine.toStringRepr
  simp only [SeparatorLine.tryParse]
  rw [if_neg (by decide : ¬ ('|' : Char) = '+')]

lemma segsOf_none_snd (cols : List Nat) : ∀ p ∈ segsOf cols none, p.2 = none := by
  induction cols with
  | nil => intro p hp; simp [segsOf] at hp
  | cons l ls ih =>
    intro p hp
    rcases (by simpa [segsOf] using hp) with h | h
    · simp [h]
    · exact ih p h

lemma tryParse_sepRepr_none (cols : List Nat) (hne : cols ≠ [])
    (hpos : ∀ l ∈ cols, 0 < l) :
    SeparatorLine.tryParse (SeparatorLine.toStringRepr ⟨cols, none⟩) =
      some ⟨cols, none⟩ := by
  rw [tryParse_toStringRepr cols none hne hpos]
  have hnone : ((segsOf cols none).map (·.2)).any Option.isSome = false := by
    rw [List.any_eq_false]
    intro v hv
    rw [List.mem_map] at hv
    obtain ⟨p, hp, hv2⟩ := hv
    rw [← hv2, segsOf_none_snd cols p hp]
    simp
  rw [hnone]
  simp

/-! ## Per-row rendering facts -/

lemma padEnd_length (s : Str) (p : Nat) : (padEnd s p).length = max s.length p := by
  simp [padEnd]
  omega

lemma chunk_cellLen (f : Str) (cw sw : Nat) (hf : f.length ≤ cw)
    (h1 : 1 ≤ sw) (h2 : sw ≠ 2) (h3 : 0 < cw → cw + 2 ≤ sw) (h4 : sw = 1 → cw = 0) :
    cellLen (padEnd f (if sw ≤ 1 then 0 else sw - 2)) = sw := by
  by_cases hsw1 : sw = 1
  · have hcw : cw = 0 := h4 hsw1
    have hf0 : f = [] := by
      have : f.length = 0 := by omega
      simpa using this
    subst hf0
    subst hsw1
    simp [padEnd, cellLen]
  · have hsw3 : 3 ≤ sw := by
      rcases Nat.eq_zero_or_pos cw with hc | hc
      · omega
      · have := h3 hc
        omega
    rw [if_neg (by omega : ¬ sw ≤ 1)]
    have hcwle : cw ≤ sw - 2 := by
      rcases Nat.eq_zero_or_pos cw with hc | hc
      · omega
      · have := h3 hc
        omega
    have hlenp : (padEnd f (sw - 2)).length = sw - 2 := by
      rw [padEnd_length]
      omega
    have hne : padEnd f (sw - 2) ≠ [] := by
      intro h
      rw [h] at hlenp
      simp at hlenp
      omega
    unfold cellLen
    rw [if_neg hne, hlenp]
    omega

lemma rowPartsAt_length (rls : List (List Str)) :
    ∀ (pads : List Nat) (idx : Nat), (rowPartsAt rls pads idx).length = rls.length := by
  induction rls with
  | nil => intro pads idx; simp [rowPartsAt]
  | cons ls rest ih =>
    intro pads idx
    match pads with
    | [] => simp [rowPartsAt, ih]
    | p :: ps => simp [rowPartsAt, ih]

lemma rowPartsAt_getD (rls : List (List Str)) :
    ∀ (pads : List Nat) (idx i : Nat), i < rls.length →
      (rowPartsAt rls pads idx).getD i [] =
        padEnd ((rls.getD i []).getD idx []) (pads.getD i 0) := by
  induction rls with
  | nil => intro pads idx i hi; simp at hi
  | cons ls rest ih =>
    intro pads idx i hi
    match pads, i with
    | [], 0 => simp [rowPartsAt]
    | [], i + 1 => simpa [rowPartsAt] using ih [] idx i (by simpa using hi)
    | p :: ps, 0 => simp [rowPartsAt]
    | p :: ps, i + 1 => simpa [rowPartsAt] using ih ps idx i (by simpa using hi)

lemma renderRowLines_shape (pads : List Nat) (row : TableRow) (n h : Nat)
    (hcells : row.cells.length = n) (hn : 0 < n)
    (hh : ∀ c ∈ row.cells, (splitNl c.content).length = h) :
    renderRowLines pads row =
      (List.range h).map
        (fun idx => ⟨rowPartsAt (row.cells.map (fun c => splitNl c.content)) pads idx⟩) := by
  have hrls : listMax ((row.cells.map (fun c => splitNl c.content)).map List.length) = h := by
    apply listMax_all_eq
    · intro he
      rw [List.map_eq_nil_iff, List.map_eq_nil_iff] at he
      rw [he] at hcells
      simp at hcells
      omega
    · intro x hx
      simp only [List.map_map, List.mem_map] at hx
      obtain ⟨c, hc, hxc⟩ := hx
      rw [← hxc]
      exact hh c hc
  unfold renderRowLines
  rw [hrls]

lemma renderRowLines_ne_nil (pads : List Nat) (row : TableRow) (n h : Nat)
    (hcells : row.cells.length = n) (hn : 0 < n) (hhpos : 0 < h)
    (hh : ∀ c ∈ row.cells, (splitNl c.content).length = h) :
    renderRowLines pads row ≠ [] := by
  rw [renderRowLines_shape pads row n h hcells hn hh]
  simp [List.range_eq_nil]
  omega

lemma forall₂_of_getD {α β : Type} (R : α → β → Prop) (l₁ : List α) (l₂ : List β)
    (d₁ : α) (d₂ : β) (hlen : l₁.length = l₂.length)
    (h : ∀ i, i < l₁.length → R (l₁.getD i d₁) (l₂.getD i d₂)) :
    List.Forall₂ R l₁ l₂ := by
  apply List.forall₂_of_length_eq_of_get hlen
  intro i h₁ h₂
  have hi := h i h₁
  rw [List.getD_eq_getElem l₁ d₁ h₁, List.getD_eq_getElem l₂ d₂ h₂] at hi
  simpa using hi

lemma paddingWidthsOf_getD (sepW : List Nat) (i : Nat) (hi : i < sepW.length) :
    (paddingWidthsOf sepW).getD i 0 =
      if sepW.getD i 0 ≤ 1 then 0 else sepW.getD i 0 - 2 := by
  unfold paddingWidthsOf
  exact getD_map _ _ i hi 0 0

lemma subline_facts (row : TableRow) (n h : Nat) (i idx : Nat)
    (hcells : row.cells.length = n) (hi : i < n) (hidx : idx < h)
    (hh : ∀ c ∈ row.cells, (splitNl c.content).length = h) :
    ∃ c : TableCell, row.cells[i]? = some c ∧
      (splitNl c.content).getD idx [] ∈ splitNl c.content ∧
      ((row.cells.map (fun c => splitNl c.content)).getD i []).getD idx [] =
        (splitNl c.content).getD idx [] := by
  have hilen : i < row.cells.length := by omega
  refine ⟨row.cells.getD i ⟨[]⟩, ?_, ?_, ?_⟩
  · rw [List.getD_eq_getElem _ _ hilen]
    simp
  · have hlen : (splitNl (row.cells.getD i ⟨[]⟩).content).length = h := by
      apply hh
      rw [List.getD_eq_getElem _ _ hilen]
      exact List.getElem_mem hilen
    have hidx2 : idx < (splitNl (row.cells.getD i ⟨[]⟩).content).length := by
      rw [hlen]
      omega
    rw [List.getD_eq_getElem _ ([] : Str) hidx2]
    exact List.getElem_mem hidx2
  · rw [getD_map _ _ i hilen [] ⟨[]⟩]

lemma render_chunks_spec (colW sepW pads : List Nat) (row : TableRow) (n h : Nat)
    (hcolW : colW.length = n) (hsepWlen : sepW.length = n)
    (hpads : pads = paddingWidthsOf sepW)
    (hw1 : ∀ i, i < n → 1 ≤ sepW.getD i 0)
    (hw2 : ∀ i, i < n → sepW.getD i 0 ≠ 2)
    (hw3 : ∀ i, i < n → 0 < colW.getD i 0 → colW.getD i 0 + 2 ≤ sepW.getD i 0)
    (hw4 : ∀ i, i < n → sepW.getD i 0 = 1 → colW.getD i 0 = 0)
    (hcells : row.cells.length = n) (hn : 0 < n)
    (hh : ∀ c ∈ row.cells, (splitNl c.content).length = h)
    (hbound : ∀ (i : Nat) (c : TableCell), row.cells[i]? = some c →
      cellMaxWidth c ≤ colW.getD i 0) :
    ∀ cl ∈ renderRowLines pads row,
      List.Forall₂ (fun ch w => cellLen ch = w) cl.dataChunks sepW := by
  intro cl hcl
  rw [renderRowLines_shape pads row n h hcells hn hh] at hcl
  rw [List.mem_map] at hcl
  obtain ⟨idx, hidx, hcl2⟩ := hcl
  rw [List.mem_range] at hidx
  subst hcl2
  have hchlen : (rowPartsAt (row.cells.map (fun c => splitNl c.content)) pads idx).length
      = n := by
    rw [rowPartsAt_length]
    simp [hcells]
  apply forall₂_of_getD _ _ _ ([] : Str) (0 : Nat)
  · show (rowPartsAt (row.cells.map (fun c => splitNl c.content)) pads idx).length
      = sepW.length
    rw [hchlen, hsepWlen]
  · intro i hilt
    have h1 : i < n := by
      have h1b : i < (rowPartsAt (row.cells.map (fun c => splitNl c.content))
        pads idx).length := hilt
      omega
    show cellLen ((rowPartsAt (row.cells.map (fun c => splitNl c.content))
      pads idx).getD i []) = sepW.getD i 0
    rw [rowPartsAt_getD _ pads idx i (by simp [hcells]; omega)]
    obtain ⟨c, hc, hmem, heq⟩ := subline_facts row n h i idx hcells h1 hidx hh
    rw [heq, hpads, paddingWidthsOf_getD sepW i (by omega)]
    apply chunk_cellLen _ (colW.getD i 0) (sepW.getD i 0)
    · calc ((splitNl c.content).getD idx []).length
          ≤ cellMaxWidth c := subline_le_cellMaxWidth c _ hmem
      _ ≤ colW.getD i 0 := hbound i c hc
    · exact hw1 i h1
    · exact hw2 i h1
    · exact hw3 i h1
    · exact hw4 i h1

lemma checkContentChunks_of_forall₂ :
    ∀ {chunks : List Str} {widths : List Nat},
      List.Forall₂ (fun ch w => cellLen ch = w) chunks widths →
      checkContentChunks widths chunks = some true := by
  intro chunks widths hf
  induction hf with
  | nil => rfl
  | @cons ch w chs ws hcw _ ih =>
    simp only [checkContentChunks]
    rw [if_neg ?_]
    · exact ih
    · unfold cellLen at hcw
      split at hcw
      · rename_i hch
        subst hch
        simp
        omega
      · omega

/-! ## Scanner, validator and converter on serialized parts -/

lemma lookAheadRest_serialized (sp : SeparatorLine)
    (hsp : SeparatorLine.tryParse sp.toStringRepr = some sp) :
    ∀ body : List TablePart,
      (∀ p ∈ body, p = TablePart.sep sp ∨
        (∃ cl, p = TablePart.content cl ∧
          ContentLine.tryParseAccordingToSepLine cl.toStringRepr sp = some cl)) →
      lookAheadRest sp (body.map TablePart.toStringRepr) = body := by
  intro body
  induction body with
  | nil => intro _; rfl
  | cons p rest ih =>
    intro hgood
    rcases hgood p (by simp) with hp | ⟨cl, hp, hcl⟩
    · subst hp
      rw [List.map_cons]
      show lookAheadRest sp (SeparatorLine.toStringRepr sp :: rest.map TablePart.toStringRepr)
        = TablePart.sep sp :: rest
      simp only [lookAheadRest, hsp]
      rw [ih (fun q hq => hgood q (by simp [hq]))]
    · subst hp
      rw [List.map_cons]
      show lookAheadRest sp (ContentLine.toStringRepr cl :: rest.map TablePart.toStringRepr)
        = TablePart.content cl :: rest
      simp only [lookAheadRest, tryParse_contentRepr cl, hcl]
      rw [ih (fun q hq => hgood q (by simp [hq]))]

lemma validLoop_contents (sepW : List Nat) :
    ∀ (cls : List ContentLine), cls ≠ [] →
      (∀ cl ∈ cls, checkContentChunks sepW cl.dataChunks = some true) →
      ∀ (rest : List TablePart) (sepOk : Bool),
        validLoop sepW (cls.map TablePart.content ++ rest) sepOk =
          validLoop sepW rest true := by
  intro cls
  induction cls with
  | nil => intro h; exact absurd rfl h
  | cons c cs ih =>
    intro _ hok rest sepOk
    rw [List.map_cons, List.cons_append]
    show validLoop sepW (TablePart.content c :: (cs.map TablePart.content ++ rest)) sepOk = _
    simp only [validLoop, hok c (by simp)]
    match cs with
    | [] => rfl
    | c2 :: cs2 =>
      exact ih (by simp) (fun cl hcl => hok cl (by simp [hcl])) rest true

lemma validLoop_sep_step (sepW : List Nat) (s : SeparatorLine)
    (hs : s.columnLengths = sepW) (rest : List TablePart) :
    validLoop sepW (TablePart.sep s :: rest) true = validLoop sepW rest false := by
  simp only [validLoop, Bool.not_true, Bool.false_eq_true, if_false]
  rw [if_neg (not_ne_iff.2 hs)]

lemma validLoop_blocks (sepW : List Nat) (sp : SeparatorLine)
    (hsp : sp.columnLengths = sepW) :
    ∀ (blocks : List (List ContentLine)),
      (∀ b ∈ blocks, b ≠ [] ∧ ∀ cl ∈ b, checkContentChunks sepW cl.dataChunks = some true) →
      validLoop sepW
        ((blocks.map (fun b => TablePart.sep sp :: b.map TablePart.content)).flatten ++
          [TablePart.sep sp]) true = some true := by
  intro blocks
  induction blocks with
  | nil =>
    intro _
    rw [show (([] : List (List ContentLine)).map
      (fun b => TablePart.sep sp :: b.map TablePart.content)).flatten ++
      [TablePart.sep sp] = [TablePart.sep sp] by simp]
    rw [validLoop_sep_step sepW sp hsp]
    rfl
  | cons b bs ih =>
    intro hgood
    obtain ⟨hbne, hbok⟩ := hgood b (by simp)
    rw [List.map_cons, List.flatten_cons, List.append_assoc, List.cons_append]
    rw [validLoop_sep_step sepW sp hsp]
    rw [validLoop_contents sepW b hbne hbok]
    exact ih (fun x hx => hgood x (by simp [hx]))

lemma specRows_contents (cols : Nat) :
    ∀ (cls : List ContentLine) (rest : List TablePart) (acc : List ContentLine),
      specRows cols (cls.map TablePart.content ++ rest) acc =
        specRows cols rest (acc ++ cls) := by
  intro cls
  induction cls with
  | nil => intro rest acc; simp
  | cons c cs ih =>
    intro rest acc
    rw [List.map_cons, List.cons_append]
    show specRows cols (TablePart.content c :: (cs.map TablePart.content ++ rest)) acc = _
    rw [show specRows cols (TablePart.content c :: (cs.map TablePart.content ++ rest)) acc =
      specRows cols (cs.map TablePart.content ++ rest) (acc ++ [c]) from rfl]
    rw [ih rest (acc ++ [c])]
    rw [List.append_assoc]
    rfl

lemma specRows_blocks (cols : Nat) (sp : SeparatorLine) :
    ∀ (blocks : List (List ContentLine)) (g : List ContentLine),
      specRows cols
        ((blocks.map (fun b => TablePart.sep sp :: b.map TablePart.content)).flatten ++
          [TablePart.sep sp]) g =
        specRowOfGroup cols g :: blocks.map (specRowOfGroup cols) := by
  intro blocks
  induction blocks with
  | nil =>
    intro g
    rw [show (([] : List (List ContentLine)).map
      (fun b => TablePart.sep sp :: b.map TablePart.content)).flatten ++
      [TablePart.sep sp] = [TablePart.sep sp] by simp]
    rfl
  | cons b bs ih =>
    intro g
    rw [List.map_cons, List.flatten_cons, List.append_assoc, List.cons_append]
    rw [show specRows cols (TablePart.sep sp ::
      (b.map TablePart.content ++
        ((bs.map (fun b => TablePart.sep sp :: b.map TablePart.content)).flatten ++
          [TablePart.sep sp]))) g =
      specRowOfGroup cols g :: specRows cols
        (b.map TablePart.content ++
          ((bs.map (fun b => TablePart.sep sp :: b.map TablePart.content)).flatten ++
            [TablePart.sep sp])) [] from rfl]
    rw [specRows_contents]
    simp only [List.nil_append]
    rw [ih b]
    simp

lemma specRowOfGroup_render (pads : List Nat) (row : TableRow) (n h : Nat)
    (hcells : row.cells.length = n) (hn : 0 < n)
    (hh : ∀ c ∈ row.cells, (splitNl c.content).length = h)
    (htrim : ∀ c ∈ row.cells, ∀ f ∈ splitNl c.content, trimEnd f = f) :
    specRowOfGroup n (renderRowLines pads row) = row := by
  rw [renderRowLines_shape pads row n h hcells hn hh]
  unfold specRowOfGroup
  have hcell : ∀ i, i < n →
      ((List.range h).map (fun idx =>
        (⟨rowPartsAt (row.cells.map (fun c => splitNl c.content)) pads idx⟩
          : ContentLine))).map (fun c => trimEnd (c.dataChunks.getD i [])) =
      splitNl (row.cells.getD i ⟨[]⟩).content := by
    intro i hi
    rw [List.map_map]
    have hmem : row.cells.getD i ⟨[]⟩ ∈ row.cells := by
      rw [List.getD_eq_getElem _ _ (by omega)]
      exact List.getElem_mem (by omega)
    have hlen : (splitNl (row.cells.getD i ⟨[]⟩).content).length = h :=
      hh _ hmem
    have hbody : ∀ idx ∈ List.range h,
        ((fun c => trimEnd (ContentLine.dataChunks c |>.getD i [])) ∘
          (fun idx => (⟨rowPartsAt (row.cells.map (fun c => splitNl c.content)) pads idx⟩
            : ContentLine))) idx =
        (splitNl (row.cells.getD i ⟨[]⟩).content).getD idx [] := by
      intro idx hidx
      rw [List.mem_range] at hidx
      show trimEnd ((rowPartsAt (row.cells.map (fun c => splitNl c.content))
        pads idx).getD i []) = _
      rw [rowPartsAt_getD _ pads idx i (by simp [hcells]; omega)]
      rw [trimEnd_padEnd]
      obtain ⟨c, hc, hmem2, heq⟩ := subline_facts row n h i idx hcells hi hidx hh
      have hcc : c = row.cells.getD i ⟨[]⟩ := by
        rw [List.getD_eq_getElem _ _ (by omega : i < row.cells.length)]
        have hc2 := hc
        rw [List.getElem?_eq_getElem (by omega : i < row.cells.length)] at hc2
        exact (Option.some_inj.1 hc2).symm
      rw [heq, htrim c (by rw [hcc]; exact hmem) _ hmem2, hcc]
    rw [List.map_congr_left hbody]
    rw [← hlen, range_map_getD]
  have hcells2 : (List.range n).map (fun i =>
      (⟨List.intercalate ['\n']
        (((List.range h).map (fun idx =>
          (⟨rowPartsAt (row.cells.map (fun c => splitNl c.content)) pads idx⟩
            : ContentLine))).map (fun c => trimEnd (c.dataChunks.getD i [])))⟩
        : TableCell)) = row.cells := by
    have hstep : ∀ i ∈ List.range n,
        (⟨List.intercalate ['\n']
          (((List.range h).map (fun idx =>
            (⟨rowPartsAt (row.cells.map (fun c => splitNl c.content)) pads idx⟩
              : ContentLine))).map (fun c => trimEnd (c.dataChunks.getD i [])))⟩
          : TableCell) = row.cells.getD i ⟨[]⟩ := by
      intro i hi
      rw [List.mem_range] at hi
      rw [hcell i hi, intercalate_splitNl]
    rw [List.map_congr_left hstep, ← hcells, range_map_getD]
  rw [hcells2]

/-! ## No newline appears in rendered lines -/

lemma mem_intercalate_singleton {α : Type} (x : α) (ls : List (List α)) (c : α) :
    c ∈ List.intercalate [x] ls → c = x ∨ ∃ l ∈ ls, c ∈ l := by
  induction ls with
  | nil => intro h; simp [List.intercalate] at h
  | cons a ls ih =>
    intro h
    match ls with
    | [] =>
      rw [intercalate_singleton] at h
      exact Or.inr ⟨a, by simp, h⟩
    | b :: ls2 =>
      rw [intercalate_cons_cons] at h
      rcases List.mem_append.1 h with h | h
      · rcases List.mem_append.1 h with h | h
        · exact Or.inr ⟨a, by simp, h⟩
        · exact Or.inl (by simpa using h)
      · rcases ih h with h | ⟨l, hl, hcl⟩
        · exact Or.inl h
        · exact Or.inr ⟨l, by simp [hl], hcl⟩

lemma sepSegs_none_shape (cols : List Nat) :
    ∀ s ∈ sepSegs cols none, ∃ l, s = List.replicate l '-' := by
  induction cols with
  | nil => intro s hs; simp [sepSegs] at hs
  | cons l ls ih =>
    intro s hs
    rcases (by simpa [sepSegs] using hs) with h | h
    · exact ⟨l, h⟩
    · exact ih s h

lemma sepRepr_no_newline (cols : List Nat) :
    '\n' ∉ SeparatorLine.toStringRepr ⟨cols, none⟩ := by
  intro h
  unfold SeparatorLine.toStringRepr at h
  rcases List.mem_cons.1 h with h | h
  · exact absurd h (by decide)
  · rcases List.mem_append.1 h with h | h
    · rcases mem_intercalate_singleton '+' _ _ h with h | ⟨l, hl, hcl⟩
      · exact absurd h (by decide)
      · obtain ⟨k, hk⟩ := sepSegs_none_shape cols l hl
        rw [hk] at hcl
        exact absurd (List.eq_of_mem_replicate hcl) (by decide : ¬ ('\n' : Char) = '-')
    · exact absurd (List.mem_singleton.1 h) (by decide : ¬ ('\n' : Char) = '+')

lemma mem_cellRepr (s : Str) (c : Char) (h : c ∈ cellRepr s) : c = ' ' ∨ c ∈ s := by
  unfold cellRepr at h
  split at h
  · exact Or.inl (by simpa using h)
  · rcases List.mem_cons.1 h with h | h
    · exact Or.inl h
    · rcases List.mem_append.1 h with h | h
      · exact Or.inr h
      · exact Or.inl (by simpa using h)

lemma contentRepr_no_newline (cl : ContentLine)
    (hchunks : ∀ ch ∈ cl.dataChunks, '\n' ∉ ch) : '\n' ∉ cl.toStringRepr := by
  intro h
  unfold ContentLine.toStringRepr at h
  rcases List.mem_cons.1 h with h | h
  · exact absurd h (by decide)
  · rcases List.mem_append.1 h with h | h
    · rcases mem_intercalate_singleton '|' _ _ h with h | ⟨l, hl, hcl⟩
      · exact absurd h (by decide)
      · rw [List.mem_map] at hl
        obtain ⟨ch, hch, hlch⟩ := hl
        rw [← hlch] at hcl
        rcases mem_cellRepr ch '\n' hcl with h2 | h2
        · exact absurd h2 (by decide)
        · exact hchunks ch hch h2
    · exact absurd (List.mem_singleton.1 h) (by decide : ¬ ('\n' : Char) = '|')

lemma splitNl_getD_no_newline (s : Str) (idx : Nat) :
    '\n' ∉ (splitNl s).getD idx [] := by
  by_cases h : idx < (splitNl s).length
  · rw [List.getD_eq_getElem _ _ h]
    exact splitNl_no_newline s _ (List.getElem_mem h)
  · rw [List.getD_eq_default]
    · simp
    · omega

lemma rowPartsAt_mem (rls : List (List Str)) :
    ∀ (pads : List Nat) (idx : Nat) (ch : Str), ch ∈ rowPartsAt rls pads idx →
      ∃ ls ∈ rls, ∃ p, ch = padEnd (ls.getD idx []) p := by
  induction rls with
  | nil => intro pads idx ch h; simp [rowPartsAt] at h
  | cons ls rest ih =>
    intro pads idx ch h
    match pads with
    | [] =>
      rw [show rowPartsAt (ls :: rest) [] idx =
        padEnd (ls.getD idx []) 0 :: rowPartsAt rest [] idx from rfl] at h
      rcases List.mem_cons.1 h with h | h
      · exact ⟨ls, by simp, 0, h⟩
      · obtain ⟨ls2, hls2, p, hp⟩ := ih [] idx ch h
        exact ⟨ls2, by simp [hls2], p, hp⟩
    | p0 :: ps =>
      rw [show rowPartsAt (ls :: rest) (p0 :: ps) idx =
        padEnd (ls.getD idx []) p0 :: rowPartsAt rest ps idx from rfl] at h
      rcases List.mem_cons.1 h with h | h
      · exact ⟨ls, by simp, p0, h⟩
      · obtain ⟨ls2, hls2, p, hp⟩ := ih ps idx ch h
        exact ⟨ls2, by simp [hls2], p, hp⟩

lemma renderRow_chunk_no_newline (pads : List Nat) (row : TableRow) :
    ∀ cl ∈ renderRowLines pads row, ∀ ch ∈ cl.dataChunks, '\n' ∉ ch := by
  intro cl hcl ch hch
  unfold renderRowLines at hcl
  rw [List.mem_map] at hcl
  obtain ⟨idx, _, hcl2⟩ := hcl
  rw [← hcl2] at hch
  obtain ⟨ls, hls, p, hp⟩ := rowPartsAt_mem _ pads idx ch hch
  rw [List.mem_map] at hls
  obtain ⟨c, _, hlsc⟩ := hls
  rw [hp]
  unfold padEnd
  intro hmem
  rcases List.mem_append.1 hmem with h | h
  · rw [← hlsc] at h
    exact splitNl_getD_no_newline c.content idx h
  · exact absurd (List.eq_of_mem_replicate h) (by decide)

/-! ## The round-trip core -/

lemma roundtrip_core (sepW : List Nat) (n : Nat) (hsepWlen : sepW.length = n)
    (hn : 0 < n) (hsepWpos : ∀ l ∈ sepW, 0 < l)
    (pads : List Nat) (rows : List TableRow) (hrows_ne : rows ≠ [])
    (hrow_forall : ∀ row ∈ rows, ∀ cl ∈ renderRowLines pads row,
      List.Forall₂ (fun ch w => cellLen ch = w) cl.dataChunks sepW)
    (hrow_ne : ∀ row ∈ rows, renderRowLines pads row ≠ [])
    (hrow_spec : ∀ row ∈ rows, specRowOfGroup n (renderRowLines pads row) = row) :
    tryParseTableFromParsedParts (lookAheadForTableParts
      (splitNl (List.intercalate ['\n']
        (((rows.map (fun row => TablePart.sep ⟨sepW, none⟩ ::
            (renderRowLines pads row).map TablePart.content)).flatten ++
          [TablePart.sep ⟨sepW, none⟩]).map TablePart.toStringRepr)))) =
      some ⟨rows⟩ := by
  have hsepW_ne : sepW ≠ [] := by
    intro h
    rw [h] at hsepWlen
    simp at hsepWlen
    omega
  have hsp : SeparatorLine.tryParse (SeparatorLine.toStringRepr ⟨sepW, none⟩) =
      some ⟨sepW, none⟩ := tryParse_sepRepr_none sepW hsepW_ne hsepWpos
  obtain ⟨r0, rs, rfl⟩ : ∃ r0 rs, rows = r0 :: rs :=
    match rows, hrows_ne with
    | r0 :: rs, _ => ⟨r0, rs, rfl⟩
  -- The emitted part sequence and its two decompositions.
  have hparts_cons :
      (((r0 :: rs).map (fun row => TablePart.sep ⟨sepW, none⟩ ::
          (renderRowLines pads row).map TablePart.content)).flatten ++
        [TablePart.sep ⟨sepW, none⟩]) =
      TablePart.sep ⟨sepW, none⟩ ::
        ((renderRowLines pads r0).map TablePart.content ++
          ((rs.map (fun row => TablePart.sep ⟨sepW, none⟩ ::
            (renderRowLines pads row).map TablePart.content)).flatten ++
            [TablePart.sep ⟨sepW, none⟩])) := by
    rw [List.map_cons, List.flatten_cons]
    simp [List.append_assoc]
  have hFmap : rs.map (fun row => TablePart.sep ⟨sepW, none⟩ ::
      (renderRowLines pads row).map TablePart.content) =
      (rs.map (renderRowLines pads)).map
        (fun b => TablePart.sep ⟨sepW, none⟩ :: b.map TablePart.content) := by
    rw [List.map_map]
    rfl
  -- Membership characterization of the emitted parts.
  have hmem : ∀ p ∈ (((r0 :: rs).map (fun row => TablePart.sep ⟨sepW, none⟩ ::
      (renderRowLines pads row).map TablePart.content)).flatten ++
        [TablePart.sep ⟨sepW, none⟩]),
      p = TablePart.sep ⟨sepW, none⟩ ∨
        ∃ row ∈ r0 :: rs, ∃ cl ∈ renderRowLines pads row, p = TablePart.content cl := by
    intro p hp
    rcases List.mem_append.1 hp with hp | hp
    · rw [List.mem_flatten] at hp
      obtain ⟨block, hb, hpb⟩ := hp
      rw [List.mem_map] at hb
      obtain ⟨row, hrow, hbr⟩ := hb
      rw [← hbr] at hpb
      rcases List.mem_cons.1 hpb with hp2 | hp2
      · exact Or.inl hp2
      · rw [List.mem_map] at hp2
        obtain ⟨cl, hcl, hpcl⟩ := hp2
        exact Or.inr ⟨row, hrow, cl, hcl, hpcl.symm⟩
    · exact Or.inl (List.mem_singleton.1 hp)
  -- Each rendered content line parses back against the separator.
  have hcontent_good : ∀ row ∈ r0 :: rs, ∀ cl ∈ renderRowLines pads row,
      ContentLine.tryParseAccordingToSepLine cl.toStringRepr ⟨sepW, none⟩ = some cl := by
    intro row hrow cl hcl
    have hf := hrow_forall row hrow cl hcl
    have hne : cl.dataChunks ≠ [] := by
      intro h
      have := hf.length_eq
      rw [h] at this
      simp at this
      omega
    have := content_parse_repr cl.dataChunks sepW none hne hf
    simpa using this
  -- Splitting the emitted text recovers exactly the emitted lines.
  have hsplit : splitNl (List.intercalate ['\n']
      ((((r0 :: rs).map (fun row => TablePart.sep ⟨sepW, none⟩ ::
          (renderRowLines pads row).map TablePart.content)).flatten ++
        [TablePart.sep ⟨sepW, none⟩]).map TablePart.toStringRepr)) =
      (((r0 :: rs).map (fun row => TablePart.sep ⟨sepW, none⟩ ::
          (renderRowLines pads row).map TablePart.content)).flatten ++
        [TablePart.sep ⟨sepW, none⟩]).map TablePart.toStringRepr := by
    apply splitNl_intercalate
    · simp
    · intro l hl
      rw [List.mem_map] at hl
      obtain ⟨p, hp, hlp⟩ := hl
      rw [← hlp]
      rcases hmem p hp with hps | ⟨row, hrow, cl, hcl, hpc⟩
      · rw [hps]
        exact sepRepr_no_newline sepW
      · rw [hpc]
        exact contentRepr_no_newline cl (renderRow_chunk_no_newline pads row cl hcl)
  rw [hsplit, hparts_cons, List.map_cons]
  rw [show TablePart.toStringRepr (TablePart.sep ⟨sepW, none⟩) =
    SeparatorLine.toStringRepr ⟨sepW, none⟩ from rfl]
  -- The scanner re-accumulates the emitted parts.
  have hscan : lookAheadForTableParts
      (SeparatorLine.toStringRepr ⟨sepW, none⟩ ::
        ((renderRowLines pads r0).map TablePart.content ++
          ((rs.map (fun row => TablePart.sep ⟨sepW, none⟩ ::
            (renderRowLines pads row).map TablePart.content)).flatten ++
            [TablePart.sep ⟨sepW, none⟩])).map TablePart.toStringRepr) =
      TablePart.sep ⟨sepW, none⟩ ::
        ((renderRowLines pads r0).map TablePart.content ++
          ((rs.map (fun row => TablePart.sep ⟨sepW, none⟩ ::
            (renderRowLines pads row).map TablePart.content)).flatten ++
            [TablePart.sep ⟨sepW, none⟩])) := by
    show (match SeparatorLine.tryParse (SeparatorLine.toStringRepr ⟨sepW, none⟩) with
      | some s => TablePart.sep s :: lookAheadRest s _
      | none => []) = _
    rw [hsp]
    show TablePart.sep ⟨sepW, none⟩ :: lookAheadRest ⟨sepW, none⟩ _ = _
    rw [lookAheadRest_serialized ⟨sepW, none⟩ hsp _ ?_]
    intro p hp
    have hp2 : p ∈ (((r0 :: rs).map (fun row => TablePart.sep ⟨sepW, none⟩ ::
        (renderRowLines pads row).map TablePart.content)).flatten ++
          [TablePart.sep ⟨sepW, none⟩]) := by
      rw [hparts_cons]
      exact List.mem_cons_of_mem _ hp
    rcases hmem p hp2 with hps | ⟨row, hrow, cl, hcl, hpc⟩
    · exact Or.inl hps
    · exact Or.inr ⟨cl, hpc, hcontent_good row hrow cl hcl⟩
  rw [hscan]
  -- The validator accepts.
  have hc0ne : (renderRowLines pads r0).map TablePart.content ≠ [] := by
    simpa using hrow_ne r0 (by simp)
  have hchecks : ∀ row ∈ r0 :: rs, ∀ cl ∈ renderRowLines pads row,
      checkContentChunks sepW cl.dataChunks = some true :=
    fun row hrow cl hcl => checkContentChunks_of_forall₂ (hrow_forall row hrow cl hcl)
  have hvl : validLoop sepW
      ((renderRowLines pads r0).map TablePart.content ++
        ((rs.map (fun row => TablePart.sep ⟨sepW, none⟩ ::
          (renderRowLines pads row).map TablePart.content)).flatten ++
          [TablePart.sep ⟨sepW, none⟩])) false = some true := by
    rw [validLoop_contents sepW (renderRowLines pads r0) (hrow_ne r0 (by simp))
      (hchecks r0 (by simp))]
    rw [hFmap]
    apply validLoop_blocks sepW ⟨sepW, none⟩ rfl
    intro b hb
    rw [List.mem_map] at hb
    obtain ⟨row, hrow, hbr⟩ := hb
    rw [← hbr]
    exact ⟨hrow_ne row (by simp [hrow]), hchecks row (by simp [hrow])⟩
  have hlen3 : ¬ (TablePart.sep (⟨sepW, none⟩ : SeparatorLine) ::
      ((renderRowLines pads r0).map TablePart.content ++
        ((rs.map (fun row => TablePart.sep ⟨sepW, none⟩ ::
          (renderRowLines pads row).map TablePart.content)).flatten ++
          [TablePart.sep ⟨sepW, none⟩]))).length < 3 := by
    have h1 : 0 < ((renderRowLines pads r0).map TablePart.content).length := by
      rcases List.length_pos.2 hc0ne with h
      exact h
    simp only [List.length_cons, List.length_append, List.length_singleton]
    omega
  have hlast : (TablePart.sep (⟨sepW, none⟩ : SeparatorLine) ::
      ((renderRowLines pads r0).map TablePart.content ++
        ((rs.map (fun row => TablePart.sep ⟨sepW, none⟩ ::
          (renderRowLines pads row).map TablePart.content)).flatten ++
          [TablePart.sep ⟨sepW, none⟩]))).getLast? =
      some (TablePart.sep ⟨sepW, none⟩) := by
    rw [← hparts_cons]
    exact List.getLast?_concat _
  have hvalid : isValidTableSpec (TablePart.sep (⟨sepW, none⟩ : SeparatorLine) ::
      ((renderRowLines pads r0).map TablePart.content ++
        ((rs.map (fun row => TablePart.sep ⟨sepW, none⟩ ::
          (renderRowLines pads row).map TablePart.content)).flatten ++
          [TablePart.sep ⟨sepW, none⟩]))) = some true := by
    unfold isValidTableSpec
    rw [if_neg hlen3]
    show (match (TablePart.sep (⟨sepW, none⟩ : SeparatorLine) ::
      ((renderRowLines pads r0).map TablePart.content ++
        ((rs.map (fun row => TablePart.sep ⟨sepW, none⟩ ::
          (renderRowLines pads row).map TablePart.content)).flatten ++
          [TablePart.sep ⟨sepW, none⟩]))).getLast? with
      | some (TablePart.sep _) => validLoop sepW _ false
      | _ => some false) = some true
    rw [hlast]
    exact hvl
  -- The converter rebuilds the original rows.
  have hconv : validSpecToTableContent (TablePart.sep (⟨sepW, none⟩ : SeparatorLine) ::
      ((renderRowLines pads r0).map TablePart.content ++
        ((rs.map (fun row => TablePart.sep ⟨sepW, none⟩ ::
          (renderRowLines pads row).map TablePart.content)).flatten ++
          [TablePart.sep ⟨sepW, none⟩]))) = some ⟨r0 :: rs⟩ := by
    unfold validSpecToTableContent
    show Option.map TableContent.mk (convGo
      (((renderRowLines pads r0).map TablePart.content ++
        ((rs.map (fun row => TablePart.sep ⟨sepW, none⟩ ::
          (renderRowLines pads row).map TablePart.content)).flatten ++
          [TablePart.sep ⟨sepW, none⟩])))
      (List.replicate sepW.length []) false []) = some ⟨r0 :: rs⟩
    rw [← bufsOf_nil sepW.length]
    rw [convGo_spec sepW _ false [] [] hvl ?chunkbound]
    case chunkbound =>
      intro cl hcl
      have hclp : TablePart.content cl ∈ (((r0 :: rs).map
          (fun row => TablePart.sep ⟨sepW, none⟩ ::
            (renderRowLines pads row).map TablePart.content)).flatten ++
          [TablePart.sep ⟨sepW, none⟩]) := by
        rw [hparts_cons]
        exact List.mem_cons_of_mem _ hcl
      rcases hmem _ hclp with hps | ⟨row, hrow, cl2, hcl2, hpc⟩
      · exact absurd hps (by simp)
      · have hcl2eq : cl = cl2 := TablePart.content.inj hpc
        subst hcl2eq
        have := (hrow_forall row hrow cl hcl2).length_eq
        omega
    rw [List.nil_append, specRows_contents, List.nil_append, hFmap, hsepWlen]
    rw [specRows_blocks n ⟨sepW, none⟩ (rs.map (renderRowLines pads))
      (renderRowLines pads r0)]
    rw [hrow_spec r0 (by simp), List.map_map]
    rw [List.map_congr_left (fun row hrow => by
      show specRowOfGroup n (renderRowLines pads row) = id row
      rw [hrow_spec row (by simp [hrow])]
      rfl)]
    simp
  unfold tryParseTableFromParsedParts
  rw [hvalid]
  exact hconv

/-! ## Round trip for the full serializer -/

lemma baseAdjustedWidths_pos (cws : List Nat) :
    ∀ (bs : List Int), ∀ l ∈ baseAdjustedWidths cws bs, 0 < l := by
  induction cws with
  | nil => intro bs l hl; simp [baseAdjustedWidths] at hl
  | cons cw cws ih =>
    intro bs l hl
    match bs with
    | [] =>
      rcases (by simpa [baseAdjustedWidths] using hl) with h | h
      · rw [h]; exact fallbackWidth_pos cw
      · exact ih [] l h
    | b :: bs =>
      rcases (by simpa [baseAdjustedWidths] using hl) with h | h
      · rw [h]; exact adjustWidth_pos cw b
      · exact ih bs l h

lemma separatorWidthsOf_pos (colW : List Nat) (base : Option (List Int)) :
    ∀ l ∈ separatorWidthsOf colW base, 0 < l := by
  intro l hl
  match base with
  | none =>
    simp only [separatorWidthsOf, List.mem_map] at hl
    obtain ⟨cw, _, hcw⟩ := hl
    rw [← hcw]
    exact fallbackWidth_pos cw
  | some bs =>
    simp only [separatorWidthsOf] at hl
    split at hl
    · exact baseAdjustedWidths_pos colW bs l hl
    · rw [List.mem_map] at hl
      obtain ⟨cw, _, hcw⟩ := hl
      rw [← hcw]
      exact fallbackWidth_pos cw

lemma roundtrip_table (t : TableContent) (W : List Int) (n : Nat)
    (H1 : t.rows ≠ []) (H2 : ∀ row ∈ t.rows, row.cells.length = n) (H3 : 0 < n)
    (H4 : ∀ row ∈ t.rows, ∀ c1 ∈ row.cells, ∀ c2 ∈ row.cells,
      (splitNl c1.content).length = (splitNl c2.content).length)
    (H5 : ∀ row ∈ t.rows, ∀ c ∈ row.cells, ∀ f ∈ splitNl c.content, trimEnd f = f)
    (H6 : ∀ i, i < n → (colContentWidths t).getD i 0 = 0 → W.getD i 0 ≠ 2) :
    tryParseTableFromParsedParts (lookAheadForTableParts (splitNl
      (List.intercalate ['\n']
        ((serializeParts t (some W) none).map TablePart.toStringRepr)))) = some t := by
  have hcolWlen : (colContentWidths t).length = n := colContentWidths_length t n H1 H2
  have hsepWlen : (separatorWidthsOf (colContentWidths t) (some W)).length = n := by
    rw [separatorWidthsOf_length, hcolWlen]
  have hw1 : ∀ i, i < n →
      1 ≤ (separatorWidthsOf (colContentWidths t) (some W)).getD i 0 := by
    intro i hi
    have h := separatorWidthsOf_getD (colContentWidths t) (some W) i (by omega)
    rcases Nat.eq_zero_or_pos ((colContentWidths t).getD i 0) with hc | hc
    · exact h.1 hc
    · have := h.2 hc
      omega
  have hw2 : ∀ i, i < n →
      (separatorWidthsOf (colContentWidths t) (some W)).getD i 0 ≠ 2 := by
    intro i hi
    exact sepW_ne_two (colContentWidths t) W i (by omega) (H6 i hi)
  have hw3 : ∀ i, i < n → 0 < (colContentWidths t).getD i 0 →
      (colContentWidths t).getD i 0 + 2 ≤
        (separatorWidthsOf (colContentWidths t) (some W)).getD i 0 := by
    intro i hi hc
    exact (separatorWidthsOf_getD (colContentWidths t) (some W) i (by omega)).2 hc
  have hw4 : ∀ i, i < n →
      (separatorWidthsOf (colContentWidths t) (some W)).getD i 0 = 1 →
      (colContentWidths t).getD i 0 = 0 := by
    intro i hi h
    exact sepW_cw_zero_of_one (colContentWidths t) (some W) i (by omega) h
  have hrow_pack : ∀ row ∈ t.rows,
      (∀ cl ∈ renderRowLines
          (paddingWidthsOf (separatorWidthsOf (colContentWidths t) (some W))) row,
        List.Forall₂ (fun ch w => cellLen ch = w) cl.dataChunks
          (separatorWidthsOf (colContentWidths t) (some W))) ∧
      renderRowLines
        (paddingWidthsOf (separatorWidthsOf (colContentWidths t) (some W))) row ≠ [] ∧
      specRowOfGroup n (renderRowLines
        (paddingWidthsOf (separatorWidthsOf (colContentWidths t) (some W))) row) = row := by
    intro row hrow
    have hcells := H2 row hrow
    obtain ⟨c0, crest, hc0⟩ : ∃ c0 crest, row.cells = c0 :: crest := by
      match hx : row.cells with
      | [] =>
        rw [hx] at hcells
        simp at hcells
        omega
      | c0 :: crest => exact ⟨c0, crest, rfl⟩
    have hh : ∀ c ∈ row.cells, (splitNl c.content).length = (splitNl c0.content).length :=
      fun c hc => H4 row hrow c hc c0 (by rw [hc0]; simp)
    have hhpos : 0 < (splitNl c0.content).length := List.length_pos.2 (splitNl_ne_nil _)
    refine ⟨?_, ?_, ?_⟩
    · exact render_chunks_spec (colContentWidths t)
        (separatorWidthsOf (colContentWidths t) (some W))
        (paddingWidthsOf (separatorWidthsOf (colContentWidths t) (some W)))
        row n (splitNl c0.content).length hcolWlen hsepWlen rfl hw1 hw2 hw3 hw4
        hcells H3 hh (fun i c hc => colContentWidths_ge t row hrow i c hc)
    · exact renderRowLines_ne_nil _ row n (splitNl c0.content).length hcells H3 hhpos hh
    · exact specRowOfGroup_render _ row n (splitNl c0.content).length hcells H3 hh
        (H5 row hrow)
  have hcore := roundtrip_core (separatorWidthsOf (colContentWidths t) (some W)) n
    hsepWlen H3
    (separatorWidthsOf_pos (colContentWidths t) (some W))
    (paddingWidthsOf (separatorWidthsOf (colContentWidths t) (some W)))
    t.rows H1
    (fun row hrow => (hrow_pack row hrow).1)
    (fun row hrow => (hrow_pack row hrow).2.1)
    (fun row hrow => (hrow_pack row hrow).2.2)
  exact hcore

/-- C1 counterexample: on the one-row table `[["ab\ncd", "x"]]` with base
widths `[4, 3]` the round trip is not the identity: the second cell's missing
second sub-line is padded with blanks, parsed back as an empty fragment and
joined, so the cell comes back as `"x\n"` instead of `"x"`. -/
theorem claim_C1_counterexample :
    tableContentToString ⟨[⟨[⟨"ab\ncd".toList⟩, ⟨"x".toList⟩]⟩]⟩ (some [4, 3]) none =
      some ("+----+---+\n| ab | x |\n| cd |   |\n+----+---+".toList) ∧
    tryParseTableFromParsedParts (lookAheadForTableParts
      (splitNl ("+----+---+\n| ab | x |\n| cd |   |\n+----+---+".toList))) =
      some ⟨[⟨[⟨"ab\ncd".toList⟩, ⟨"x\n".toList⟩]⟩]⟩ ∧
    (⟨[⟨[⟨"ab\ncd".toList⟩, ⟨"x\n".toList⟩]⟩]⟩ : TableContent) ≠
      ⟨[⟨[⟨"ab\ncd".toList⟩, ⟨"x".toList⟩]⟩]⟩ := by
  refine ⟨by decide, by decide, by decide⟩

/-- C1 (amended): for a non-empty Table whose rows all have the same positive
cell count, in which within each row all cells split into the same number of
sub-lines, no sub-line carries trailing whitespace, and no all-empty column is
given base width exactly 2, serializing with base widths `W`, scanning the
lines and parsing yields the original Table, and re-serializing any parse
result with the same `W` is byte-identical (idempotence). -/
theorem claim_C1_roundtrip (t : TableContent) (W : List Int) (n : Nat)
    (H1 : t.rows ≠ []) (H2 : ∀ row ∈ t.rows, row.cells.length = n) (H3 : 0 < n)
    (H4 : ∀ row ∈ t.rows, ∀ c1 ∈ row.cells, ∀ c2 ∈ row.cells,
      (splitNl c1.content).length = (splitNl c2.content).length)
    (H5 : ∀ row ∈ t.rows, ∀ c ∈ row.cells, ∀ f ∈ splitNl c.content, trimEnd f = f)
    (H6 : ∀ i, i < n → (colContentWidths t).getD i 0 = 0 → W.getD i 0 ≠ 2) :
    ∃ text, tableContentToString t (some W) none = some text ∧
      tryParseTableFromParsedParts (lookAheadForTableParts (splitNl text)) = some t ∧
      ∀ t2, tryParseTableFromParsedParts (lookAheadForTableParts (splitNl text)) =
          some t2 → tableContentToString t2 (some W) none = some text := by
  have hts : tableContentToString t (some W) none =
      some (List.intercalate ['\n']
        ((serializeParts t (some W) none).map TablePart.toStringRepr)) := by
    unfold tableContentToString
    rw [if_neg ?_]
    intro hempty
    rw [List.isEmpty_iff] at hempty
    have := separatorWidthsOf_length (colContentWidths t) (some W)
    rw [hempty, colContentWidths_length t n H1 H2] at this
    simp at this
    omega
  have hparse := roundtrip_table t W n H1 H2 H3 H4 H5 H6
  refine ⟨_, hts, hparse, ?_⟩
  intro t2 ht2
  rw [hparse] at ht2
  injection ht2 with h
  rw [← h]
  exact hts

/-- Witness for C1 (amended) at a one-row table `[["ab", "x"]]` with base
widths `[10, 5]`. -/
theorem claim_C1_roundtrip_witness :
    ∃ text, tableContentToString ⟨[⟨[⟨"ab".toList⟩, ⟨"x".toList⟩]⟩]⟩ (some [10, 5]) none =
      some text ∧
      tryParseTableFromParsedParts (lookAheadForTableParts (splitNl text)) =
        some ⟨[⟨[⟨"ab".toList⟩, ⟨"x".toList⟩]⟩]⟩ ∧
      ∀ t2, tryParseTableFromParsedParts (lookAheadForTableParts (splitNl text)) =
          some t2 →
        tableContentToString t2 (some [10, 5]) none = some text :=
  claim_C1_roundtrip ⟨[⟨[⟨"ab".toList⟩, ⟨"x".toList⟩]⟩]⟩ [10, 5] 2 (by decide)
    (by decide) (by decide) (by decide) (by decide) (by decide)
